import Mathlib

/-!
Verification of the `timeutil` package of chronicleprotocol/go-utils
(`Scheduler`, `ScheduledTicker`, the cron-like schedule parser and the
next-occurrence algorithm).

The embedding models Go's `time.Time` (with a fixed-offset location such
as UTC) as a record of calendar components.  `time.Date` is modelled by
the same normalization Go performs: clock fields are normalized into the
day, the month is normalized into the year, and an out-of-range day
spills into the following (or preceding) months.  `time.Time.Add` is
modelled by adding the duration to the nanosecond-of-day and stepping
whole calendar days.  Chronological order of valid times is lexicographic
on the components; `GoTime.key` maps a time injectively and monotonically
into `Int` so that "strictly later" is `key` comparison.

Go strings are modelled as `List Char`; `strings.Split`,
`strings.TrimSuffix`, `strconv.Atoi` and `fmt` rendering of small
integers are modelled directly on character lists.

The `Scheduler` loop (goroutine `scheduler` plus helper `sleep`) is
modelled as a step function over instants on the real line (`Int`
nanoseconds), with the cancellation state at each potential blocking
point supplied as an oracle input for every iteration.
-/

namespace timeutil


/-! ## Constants from the source -/

def secondsInMinute : Int := 60

def minutesInHour : Int := 60

def hoursInDay : Int := 24

def daysInWeek : Int := 7

def maxDaysInMonth : Int := 31

def monthsInYear : Int := 12

def nsPerSecond : Int := 1000000000

def nsPerMinute : Int := 60 * nsPerSecond

def nsPerHour : Int := 60 * nsPerMinute

def nsPerDay : Int := 24 * nsPerHour

/-! ## Calendar model of Go `time.Time` (fixed-offset location) -/

/-- Leap year test, as in Go's `isLeap`:
`year%4 == 0 && (year%100 != 0 || year%400 == 0)`. -/
def isLeapYear (y : Int) : Bool :=
  y % 4 == 0 && (y % 100 != 0 || y % 400 == 0)

/-- Number of days of month `m` (1..12) in year `y`, as Go's
`daysIn`. -/
def daysInMonth (y m : Int) : Int :=
  if m == 2 then (if isLeapYear y then 29 else 28)
  else if m == 4 || m == 6 || m == 9 || m == 11 then 30
  else 31

/-- A Go `time.Time` in a fixed-offset location, by calendar
components.  A value produced by the Go runtime always satisfies
`GoTime.Valid`. -/
structure GoTime where
  year : Int
  month : Int
  day : Int
  hour : Int
  minute : Int
  sec : Int
  nsec : Int
deriving DecidableEq, Repr

/-- The representation invariant of a `time.Time` instant. -/
def GoTime.Valid (t : GoTime) : Prop :=
  1 ≤ t.month ∧ t.month ≤ 12 ∧
  1 ≤ t.day ∧ t.day ≤ daysInMonth t.year t.month ∧
  0 ≤ t.hour ∧ t.hour < 24 ∧
  0 ≤ t.minute ∧ t.minute < 60 ∧
  0 ≤ t.sec ∧ t.sec < 60 ∧
  0 ≤ t.nsec ∧ t.nsec < nsPerSecond

instance (t : GoTime) : Decidable t.Valid := by
  unfold GoTime.Valid; infer_instance

/-- Key of the calendar date part: strictly monotone w.r.t.
chronological order of valid dates (months occupy 13 slots per year and
days 32 slots per month, which is enough since `1 ≤ m ≤ 12` and
`1 ≤ d ≤ 31`). -/
def dkey (y m d : Int) : Int :=
  (y * 13 + m) * 32 + d

/-- Nanosecond of the day. -/
def GoTime.tod (t : GoTime) : Int :=
  t.hour * nsPerHour + t.minute * nsPerMinute + t.sec * nsPerSecond + t.nsec

/-- Injective, chronologically monotone key of a valid instant. -/
def GoTime.key (t : GoTime) : Int :=
  dkey t.year t.month t.day * nsPerDay + t.tod

/-! ### `time.Date` normalization -/

/-- Go's `norm` applied to (year, month): returns the pair with the
month in `1..12`, carrying into the year (floor semantics, matching
Go's loop for any integer month). -/
def normMonth (y m : Int) : Int × Int :=
  (y + (m - 1) / 12, (m - 1) % 12 + 1)

/-- One spill loop for an over-long day count (`d > daysInMonth`) into
following months, as Go's conversion through absolute days does.  The
`fuel` is only a structural-recursion bound; `fixDayUp` supplies enough
of it that the base case is never as the cutoff (every step removes at
least 28 days). -/
def fixDayUpF : Nat → Int → Int → Int → Int × Int × Int
  | 0, y, m, d => (y, m, d)
  | fuel + 1, y, m, d =>
    if daysInMonth y m < d then
      if m == 12 then fixDayUpF fuel (y + 1) 1 (d - daysInMonth y m)
      else fixDayUpF fuel y (m + 1) (d - daysInMonth y m)
    else (y, m, d)

def fixDayUp (y m d : Int) : Int × Int × Int := fixDayUpF d.toNat y m d

/-- Borrows a non-positive day count from preceding months (with a
sufficient structural-recursion bound, as for `fixDayUpF`). -/
def fixDayDownF : Nat → Int → Int → Int → Int × Int × Int
  | 0, y, m, d => (y, m, d)
  | fuel + 1, y, m, d =>
    if d < 1 then
      if m == 1 then fixDayDownF fuel (y - 1) 12 (d + daysInMonth (y - 1) 12)
      else fixDayDownF fuel y (m - 1) (d + daysInMonth y (m - 1))
    else (y, m, d)

def fixDayDown (y m d : Int) : Int × Int × Int := fixDayDownF (1 - d).toNat y m d

/-- Day normalization: month must already be in `1..12`. -/
def fixDay (y m d : Int) : Int × Int × Int :=
  if d < 1 then fixDayDown y m d else fixDayUp y m d

/-- Model of Go `time.Date(y, m, d, h, mi, s, ns, loc)` for a
fixed-offset location: normalizes nsec into sec, sec into min, min into
hour, hour into day (Go's `norm` chain), then month into year, then the
day through the calendar. -/
def goDate (y m d h mi s ns : Int) : GoTime :=
  let s1 := s + ns / nsPerSecond
  let ns1 := ns % nsPerSecond
  let mi1 := mi + s1 / 60
  let s2 := s1 % 60
  let h1 := h + mi1 / 60
  let mi2 := mi1 % 60
  let d1 := d + h1 / 24
  let h2 := h1 % 24
  let ym := normMonth y m
  let ymd := fixDay ym.1 ym.2 d1
  ⟨ymd.1, ymd.2.1, ymd.2.2, h2, mi2, s2, ns1⟩

/-! ### Adding a duration -/

/-- The calendar day after day `(y, m, d)`. -/
def nextCalDay (y m d : Int) : Int × Int × Int :=
  if d < daysInMonth y m then (y, m, d + 1)
  else if m < 12 then (y, m + 1, 1)
  else (y + 1, 1, 1)

/-- The calendar day before day `(y, m, d)`. -/
def prevCalDay (y m d : Int) : Int × Int × Int :=
  if 1 < d then (y, m, d - 1)
  else if 1 < m then (y, m - 1, daysInMonth y (m - 1))
  else (y - 1, 12, daysInMonth (y - 1) 12)

/-- Steps `k` calendar days forward. -/
def addDaysNat (y m d : Int) : Nat → Int × Int × Int
  | 0 => (y, m, d)
  | k + 1 =>
    let s := nextCalDay y m d
    addDaysNat s.1 s.2.1 s.2.2 k

/-- Steps `k` calendar days backward. -/
def subDaysNat (y m d : Int) : Nat → Int × Int × Int
  | 0 => (y, m, d)
  | k + 1 =>
    let s := prevCalDay y m d
    subDaysNat s.1 s.2.1 s.2.2 k

/-- Steps `k` calendar days (either direction). -/
def addDaysInt (y m d k : Int) : Int × Int × Int :=
  if 0 ≤ k then addDaysNat y m d k.toNat else subDaysNat y m d (-k).toNat

/-- Model of Go `time.Time.Add` (a fixed-offset location): the
duration, in nanoseconds, lands on the real timeline; the date moves by
whole days (`(t.tod + delta) / nsPerDay` of them) and the clock is
rebuilt from the normalized nanosecond of the day. -/
def GoTime.addNanos (t : GoTime) (delta : Int) : GoTime :=
  ⟨(addDaysInt t.year t.month t.day ((t.tod + delta) / nsPerDay)).1,
   (addDaysInt t.year t.month t.day ((t.tod + delta) / nsPerDay)).2.1,
   (addDaysInt t.year t.month t.day ((t.tod + delta) / nsPerDay)).2.2,
   (t.tod + delta) % nsPerDay / nsPerHour,
   (t.tod + delta) % nsPerDay % nsPerHour / nsPerMinute,
   (t.tod + delta) % nsPerDay % nsPerMinute / nsPerSecond,
   (t.tod + delta) % nsPerDay % nsPerSecond⟩

/-- Days before month `m` in a non-leap year (Go's `daysBefore`
table). -/
def daysBeforeMonth (m : Int) : Int :=
  if m == 1 then 0
  else if m == 2 then 31
  else if m == 3 then 59
  else if m == 4 then 90
  else if m == 5 then 120
  else if m == 6 then 151
  else if m == 7 then 181
  else if m == 8 then 212
  else if m == 9 then 243
  else if m == 10 then 273
  else if m == 11 then 304
  else 334

/-- Day number of a valid date in the proleptic Gregorian calendar
(day 0 is January 1 of year 1). -/
def dayNumber (y m d : Int) : Int :=
  365 * (y - 1) + (y - 1).fdiv 4 - (y - 1).fdiv 100 + (y - 1).fdiv 400 +
    daysBeforeMonth m + (if 2 < m ∧ isLeapYear y then 1 else 0) + (d - 1)

/-- Model of Go `time.Time.Weekday` (`time.Sunday = 0`): January 1 of
year 1 in the proleptic Gregorian calendar is a Monday. -/
def GoTime.weekday (t : GoTime) : Int :=
  (dayNumber t.year t.month t.day + 1) % 7

/-! ### Calendar lemmas -/

/-- Validity of a bare calendar date. -/
def DateValid (y m d : Int) : Prop :=
  1 ≤ m ∧ m ≤ 12 ∧ 1 ≤ d ∧ d ≤ daysInMonth y m

/-! ## `ScheduledTicker` -/

/-- The schedule value: sorted, unique field value sets; an empty
list means every value (wildcard).  Months are `1..12` (`time.January
= 1`) and weekdays `0..6` (`time.Sunday = 0`), Go's numeric values of
`time.Month` and `time.Weekday`. -/
structure ScheduledTicker where
  seconds : List Int
  minutes : List Int
  hours : List Int
  days : List Int
  months : List Int
  weekdays : List Int
deriving DecidableEq, Repr

/-- Field values inside their legal ranges (established by `parse`). -/
def ScheduledTicker.WF (s : ScheduledTicker) : Prop :=
  (∀ v ∈ s.seconds, 0 ≤ v ∧ v < 60) ∧
  (∀ v ∈ s.minutes, 0 ≤ v ∧ v < 60) ∧
  (∀ v ∈ s.hours, 0 ≤ v ∧ v < 24) ∧
  (∀ v ∈ s.days, 1 ≤ v ∧ v ≤ 31) ∧
  (∀ v ∈ s.months, 1 ≤ v ∧ v ≤ 12) ∧
  (∀ v ∈ s.weekdays, 0 ≤ v ∧ v ≤ 6)

instance (s : ScheduledTicker) : Decidable s.WF := by
  unfold ScheduledTicker.WF; infer_instance

def ScheduledTicker.matchSecond (s : ScheduledTicker) (t : GoTime) : Bool :=
  if s.seconds.isEmpty then true else decide (t.sec ∈ s.seconds)

def ScheduledTicker.matchMinute (s : ScheduledTicker) (t : GoTime) : Bool :=
  if s.minutes.isEmpty then true else decide (t.minute ∈ s.minutes)

def ScheduledTicker.matchHour (s : ScheduledTicker) (t : GoTime) : Bool :=
  if s.hours.isEmpty then true else decide (t.hour ∈ s.hours)

def ScheduledTicker.matchDay (s : ScheduledTicker) (t : GoTime) : Bool :=
  if s.days.isEmpty then true else decide (t.day ∈ s.days)

def ScheduledTicker.matchMonth (s : ScheduledTicker) (t : GoTime) : Bool :=
  if s.months.isEmpty then true else decide (t.month ∈ s.months)

def ScheduledTicker.matchWeekday (s : ScheduledTicker) (t : GoTime) : Bool :=
  if s.weekdays.isEmpty then true else decide (t.weekday ∈ s.weekdays)

/-- `ScheduledTicker.nextMonth`: first day of the next qualifying
month, by calendar construction (`time.Date`). -/
def ScheduledTicker.nextMonth (s : ScheduledTicker) (t : GoTime) : GoTime :=
  if s.months.isEmpty then goDate (t.year + 1) 1 1 0 0 0 0
  else match s.months.find? (fun v => decide (t.month < v)) with
    | some v => goDate t.year v 1 0 0 0 0
    | none => goDate (t.year + 1) s.months.headI 1 0 0 0 0

/-- `ScheduledTicker.nextDay`: next qualifying day, by calendar
construction (`time.Date`); a day past the month length spills into the
following month exactly as `time.Date` normalizes it. -/
def ScheduledTicker.nextDay (s : ScheduledTicker) (t : GoTime) : GoTime :=
  if s.days.isEmpty then goDate t.year t.month (t.day + 1) 0 0 0 0
  else match s.days.find? (fun v => decide (t.day < v)) with
    | some v => goDate t.year t.month v 0 0 0 0
    | none => goDate t.year (t.month + 1) s.days.headI 0 0 0 0

/-- `ScheduledTicker.nextHour`: duration-based advance
(`time.Time.Add`), subtracting the offset below the hour. -/
def ScheduledTicker.nextHour (s : ScheduledTicker) (t : GoTime) : GoTime :=
  if s.hours.isEmpty then
    t.addNanos (nsPerHour - (t.minute * nsPerMinute + t.sec * nsPerSecond + t.nsec))
  else match s.hours.find? (fun v => decide (t.hour < v)) with
    | some v => t.addNanos ((v - t.hour) * nsPerHour -
        (t.minute * nsPerMinute + t.sec * nsPerSecond + t.nsec))
    | none => t.addNanos ((hoursInDay - t.hour + s.hours.headI) * nsPerHour -
        (t.minute * nsPerMinute + t.sec * nsPerSecond + t.nsec))

/-- `ScheduledTicker.nextMinute`: duration-based advance. -/
def ScheduledTicker.nextMinute (s : ScheduledTicker) (t : GoTime) : GoTime :=
  if s.minutes.isEmpty then
    t.addNanos (nsPerMinute - (t.sec * nsPerSecond + t.nsec))
  else match s.minutes.find? (fun v => decide (t.minute < v)) with
    | some v => t.addNanos ((v - t.minute) * nsPerMinute - (t.sec * nsPerSecond + t.nsec))
    | none => t.addNanos ((minutesInHour - t.minute + s.minutes.headI) * nsPerMinute -
        (t.sec * nsPerSecond + t.nsec))

/-- `ScheduledTicker.nextSecond`: duration-based advance. -/
def ScheduledTicker.nextSecond (s : ScheduledTicker) (t : GoTime) : GoTime :=
  if s.seconds.isEmpty then t.addNanos (nsPerSecond - t.nsec)
  else match s.seconds.find? (fun v => decide (t.sec < v)) with
    | some v => t.addNanos ((v - t.sec) * nsPerSecond - t.nsec)
    | none => t.addNanos ((secondsInMinute - t.sec + s.seconds.headI) * nsPerSecond - t.nsec)

/-- The fixed-point loop of `ScheduledTicker.Next`, with explicit fuel
(the source loops unboundedly; `some` models the terminating runs). -/
def ScheduledTicker.nextLoop (s : ScheduledTicker) : Nat → GoTime → Option GoTime
  | 0, _ => none
  | fuel + 1, t =>
    if !s.matchMonth t then s.nextLoop fuel (s.nextMonth t)
    else if !s.matchWeekday t || !s.matchDay t then s.nextLoop fuel (s.nextDay t)
    else if !s.matchHour t then s.nextLoop fuel (s.nextHour t)
    else if !s.matchMinute t then s.nextLoop fuel (s.nextMinute t)
    else if !s.matchSecond t then s.nextLoop fuel (s.nextSecond t)
    else some t

/-- `ScheduledTicker.Next`: advance at second granularity first, then
run the fixed-point loop. -/
def ScheduledTicker.next (s : ScheduledTicker) (fuel : Nat) (t : GoTime) : Option GoTime :=
  s.nextLoop fuel (s.nextSecond t)

instance {ε α : Type} [DecidableEq ε] [DecidableEq α] : DecidableEq (Except ε α) := fun a b =>
  match a, b with
  | .error e, .error f =>
    match decEq e f with
    | isTrue h => isTrue (h ▸ rfl)
    | isFalse h => isFalse (fun hc => h (Except.error.inj hc))
  | .error _, .ok _ => isFalse (fun hc => Except.noConfusion hc)
  | .ok _, .error _ => isFalse (fun hc => Except.noConfusion hc)
  | .ok v, .ok w =>
    match decEq v w with
    | isTrue h => isTrue (h ▸ rfl)
    | isFalse h => isFalse (fun hc => h (Except.ok.inj hc))

/-! ## Go strings (as `List Char`), `strconv.Atoi`, `fmt` rendering -/

/-- Go `strings.Split` with a one-character separator. -/
def splitOnChar (sep : Char) : List Char → List (List Char)
  | [] => [[]]
  | c :: rest =>
    if c = sep then [] :: splitOnChar sep rest
    else
      match splitOnChar sep rest with
      | [] => [[c]]
      | g :: gs => (c :: g) :: gs

/-- Go `strings.TrimSuffix`. -/
def trimSuffix (l suf : List Char) : List Char :=
  if suf.isSuffixOf l then l.take (l.length - suf.length) else l

def digitChar (n : Nat) : Char := Char.ofNat (48 + n)

def natToCharsAux : Nat → Nat → List Char → List Char
  | 0, _, acc => acc
  | fuel + 1, n, acc =>
    if n = 0 then acc else natToCharsAux fuel (n / 10) (digitChar (n % 10) :: acc)

/-- Decimal rendering of a natural, as `fmt.Sprint` (`n` itself serves
as a sufficient structural-recursion bound for the digit loop). -/
def natToChars (n : Nat) : List Char :=
  if n = 0 then ['0'] else natToCharsAux n n []

/-- Decimal rendering of an integer, as `fmt.Sprint` of a Go `int`. -/
def intToChars (n : Int) : List Char :=
  if n < 0 then '-' :: natToChars (-n).toNat else natToChars n.toNat

def digitVal (c : Char) : Option Nat :=
  if '0' ≤ c ∧ c ≤ '9' then some (c.toNat - 48) else none

def digitsValAux : List Char → Nat → Option Nat
  | [], acc => some acc
  | c :: cs, acc =>
    match digitVal c with
    | none => none
    | some d => digitsValAux cs (acc * 10 + d)

/-- Model of Go `strconv.Atoi`: optional sign then a nonempty digit
string (machine-integer overflow is not modelled; all values parsed by
the schedule grammar are tiny). -/
def atoi (l : List Char) : Option Int :=
  match l with
  | [] => none
  | '-' :: rest => if rest = [] then none else (digitsValAux rest 0).map (fun n => -(n : Int))
  | '+' :: rest => if rest = [] then none else (digitsValAux rest 0).map (fun n => (n : Int))
  | _ => (digitsValAux l 0).map (fun n => (n : Int))

/-- The message of the `*strconv.NumError` that `Atoi` returns on an
unparseable token (as rendered by `%w` in `fmt.Errorf`). -/
def atoiErrMsg (x : List Char) : List Char :=
  "strconv.Atoi: parsing \"".toList ++ x ++ "\": invalid syntax".toList

/-! ## The schedule grammar (`ScheduledTicker.parse` and helpers) -/

def parseSecond (x : List Char) : Except (List Char) Int :=
  match atoi x with
  | none => .error ("timeutil: invalid second: ".toList ++ atoiErrMsg x)
  | some i =>
    if i < 0 ∨ secondsInMinute ≤ i then .error ("timeutil: invalid second: ".toList ++ x)
    else .ok i

def parseMinute (x : List Char) : Except (List Char) Int :=
  match atoi x with
  | none => .error ("timeutil: invalid minute: ".toList ++ atoiErrMsg x)
  | some i =>
    if i < 0 ∨ minutesInHour ≤ i then .error ("timeutil: invalid minute: ".toList ++ x)
    else .ok i

def parseHour (x : List Char) : Except (List Char) Int :=
  match atoi x with
  | none => .error ("timeutil: invalid hour: ".toList ++ atoiErrMsg x)
  | some i =>
    if i < 0 ∨ hoursInDay ≤ i then .error ("timeutil: invalid hour: ".toList ++ x)
    else .ok i

def parseDay (x : List Char) : Except (List Char) Int :=
  match atoi x with
  | none => .error ("timeutil: invalid day: ".toList ++ atoiErrMsg x)
  | some i =>
    if i ≤ 0 ∨ maxDaysInMonth < i then .error ("timeutil: invalid day: ".toList ++ x)
    else .ok i

/-- One arm of a Go `switch s { case "a", "b": ... }` ladder: the
result of the first case listing the scrutinee. -/
def lookupTok (x : List Char) : List (List (List Char) × Int) → Option Int
  | [] => none
  | (names, v) :: rest => if x ∈ names then some v else lookupTok x rest

/-- The case ladder of `parseMonth` (months are Go `time.Month`
numbers `1..12`). -/
def monthTable : List (List (List Char) × Int) :=
  [(["1".toList, "jan".toList, "january".toList], 1),
   (["2".toList, "feb".toList, "february".toList], 2),
   (["3".toList, "mar".toList, "march".toList], 3),
   (["4".toList, "apr".toList, "april".toList], 4),
   (["5".toList, "may".toList], 5),
   (["6".toList, "jun".toList, "june".toList], 6),
   (["7".toList, "jul".toList, "july".toList], 7),
   (["8".toList, "aug".toList, "august".toList], 8),
   (["9".toList, "sep".toList, "september".toList], 9),
   (["10".toList, "oct".toList, "october".toList], 10),
   (["11".toList, "nov".toList, "november".toList], 11),
   (["12".toList, "dec".toList, "december".toList], 12)]

def parseMonth (x : List Char) : Except (List Char) Int :=
  match lookupTok x monthTable with
  | some v => .ok v
  | none => .error ("timeutil: invalid month: ".toList ++ x)

/-- The case ladder of `parseWeekday` (weekdays are Go `time.Weekday`
numbers `0..6`, Sunday is 0; no numeric form is accepted). -/
def weekdayTable : List (List (List Char) × Int) :=
  [(["sun".toList, "sunday".toList], 0),
   (["mon".toList, "monday".toList], 1),
   (["tue".toList, "tuesday".toList], 2),
   (["wed".toList, "wednesday".toList], 3),
   (["thu".toList, "thursday".toList], 4),
   (["fri".toList, "friday".toList], 5),
   (["sat".toList, "saturday".toList], 6)]

def parseWeekday (x : List Char) : Except (List Char) Int :=
  match lookupTok x weekdayTable with
  | some v => .ok v
  | none => .error ("timeutil: invalid weekday: ".toList ++ x)

/-- The per-token loop of `parsePart`, returning the first error. -/
def mapME (fn : List Char → Except (List Char) Int) :
    List (List Char) → Except (List Char) (List Int)
  | [] => .ok []
  | p :: ps =>
    match fn p with
    | .error e => .error e
    | .ok v =>
      match mapME fn ps with
      | .error e => .error e
      | .ok vs => .ok (v :: vs)

/-- Go `sort.Slice` with an ascending comparator on ints. -/
def sortInts (l : List Int) : List Int := l.insertionSort (· ≤ ·)

/-- Modelled from the spec: `sliceutil.Unique` (the repository's
`sliceutil` package is not among the sources provided); the spec says
each field holds "sorted, deduplicated value sets", so duplicates are
removed, keeping the first occurrence of each value. -/
def uniqueAux : List Int → List Int → List Int
  | [], _ => []
  | v :: rest, seen =>
    if v ∈ seen then uniqueAux rest seen else v :: uniqueAux rest (v :: seen)

def uniqueInts (l : List Int) : List Int := uniqueAux l []

/-- `parsePart`: strips the conventional suffix, accepts `*` as the
wildcard, otherwise parses the comma-separated values, sorts and
deduplicates them (a single value skips the sort). -/
def parsePart (part : List Char) (suffix : List Char)
    (fn : List Char → Except (List Char) Int) : Except (List Char) (List Int) :=
  if trimSuffix part suffix = ['*'] then .ok []
  else
    match mapME fn (splitOnChar ',' (trimSuffix part suffix)) with
    | .error e => .error e
    | .ok nums => if nums.length = 1 then .ok nums else .ok (uniqueInts (sortInts nums))

/-- The collapse `parse` applies to a field whose set reached the
field's full cardinality. -/
def collapseFull (l : List Int) (card : Int) : List Int :=
  if (l.length : Int) = card then [] else l

/-- `ScheduledTicker.parse`. -/
def ScheduledTicker.parse (spec : List Char) : Except (List Char) ScheduledTicker :=
  if spec.length = 0 then .error "timeutil: invalid spec: spec is empty".toList
  else if 6 < (splitOnChar ' ' spec).length then
    .error ("timeutil: invalid spec: ".toList ++ spec)
  else
    match parsePart ((splitOnChar ' ' spec).getD 0 []) ['s'] parseSecond with
    | .error e => .error e
    | .ok seconds =>
      match (if 2 ≤ (splitOnChar ' ' spec).length then
          parsePart ((splitOnChar ' ' spec).getD 1 []) ['m'] parseMinute else .ok []) with
      | .error e => .error e
      | .ok minutes =>
        match (if 3 ≤ (splitOnChar ' ' spec).length then
            parsePart ((splitOnChar ' ' spec).getD 2 []) ['h'] parseHour else .ok []) with
        | .error e => .error e
        | .ok hours =>
          match (if 4 ≤ (splitOnChar ' ' spec).length then
              parsePart ((splitOnChar ' ' spec).getD 3 []) ['d'] parseDay else .ok []) with
          | .error e => .error e
          | .ok days =>
            match (if 5 ≤ (splitOnChar ' ' spec).length then
                parsePart ((splitOnChar ' ' spec).getD 4 []) [] parseMonth else .ok []) with
            | .error e => .error e
            | .ok months =>
              match (if 6 ≤ (splitOnChar ' ' spec).length then
                  parsePart ((splitOnChar ' ' spec).getD 5 []) [] parseWeekday else .ok []) with
              | .error e => .error e
              | .ok weekdays =>
                .ok ⟨collapseFull seconds secondsInMinute,
                     collapseFull minutes minutesInHour,
                     collapseFull hours hoursInDay,
                     collapseFull days maxDaysInMonth,
                     collapseFull months monthsInYear,
                     collapseFull weekdays daysInWeek⟩

/-! ## The printer (`ScheduledTicker.String` and helpers) -/

/-- The comma-joined rendering loop shared by the `write*` helpers. -/
def joinComma : List (List Char) → List Char
  | [] => []
  | [x] => x
  | x :: xs => x ++ ',' :: joinComma xs

/-- `writeNums`: `*` for the empty (wildcard) set, else the values
comma-separated. -/
def writeNums (l : List Int) : List Char :=
  if l.isEmpty then ['*'] else joinComma (l.map intToChars)

/-- The `switch` of `writeMonths` (no output for an impossible
value). -/
def monthName (v : Int) : List Char :=
  if v = 1 then "jan".toList
  else if v = 2 then "feb".toList
  else if v = 3 then "mar".toList
  else if v = 4 then "apr".toList
  else if v = 5 then "may".toList
  else if v = 6 then "jun".toList
  else if v = 7 then "jul".toList
  else if v = 8 then "aug".toList
  else if v = 9 then "sep".toList
  else if v = 10 then "oct".toList
  else if v = 11 then "nov".toList
  else if v = 12 then "dec".toList
  else []

def writeMonths (l : List Int) : List Char :=
  if l.isEmpty then ['*'] else joinComma (l.map monthName)

/-- The `switch` of `writeWeekdays`. -/
def weekdayName (v : Int) : List Char :=
  if v = 0 then "sun".toList
  else if v = 1 then "mon".toList
  else if v = 2 then "tue".toList
  else if v = 3 then "wed".toList
  else if v = 4 then "thu".toList
  else if v = 5 then "fri".toList
  else if v = 6 then "sat".toList
  else []

def writeWeekdays (l : List Int) : List Char :=
  if l.isEmpty then ['*'] else joinComma (l.map weekdayName)

/-- `ScheduledTicker.String`: the normalized textual form. -/
def ScheduledTicker.string (s : ScheduledTicker) : List Char :=
  writeNums s.seconds ++ "s ".toList ++ writeNums s.minutes ++ "m ".toList ++
  writeNums s.hours ++ "h ".toList ++ writeNums s.days ++ "d ".toList ++
  writeMonths s.months ++ [' '] ++ writeWeekdays s.weekdays

/-- The six per-field facts `ScheduledTicker.parse` establishes: every
stored field is strictly sorted, within range, and strictly below the
field's full cardinality (a full enumeration was collapsed to the
wildcard). -/
def FieldOk (l : List Int) (lo hi : Int) : Prop :=
  l.Sorted (· < ·) ∧ (∀ v ∈ l, lo ≤ v ∧ v ≤ hi) ∧ (l.length : Int) < hi - lo + 1

/-! ## The Scheduler loop (`Scheduler.scheduler` and `sleep`)

The loop is generic in the provider, so it is modelled over instants on
the real timeline (`Int` nanoseconds) with an arbitrary `Next` function.
The cancellation state of the context at each potential blocking point
of an iteration is an oracle input. -/

/-- `scheduleMaxSleepTime = 15 * time.Minute`, in nanoseconds. -/
def scheduleMaxSleepTime : Int := 15 * 60 * 1000000000

/-- The environment of one loop iteration: the wall clock when the
iteration computes `d := time.Until(n)`, whether the context is
cancelled by the time the iteration's `sleep` call observes it, and
whether the context is cancelled while the loop is blocked on the
channel send. -/
structure IterInput where
  now : Int
  cancelSleep : Bool
  cancelSend : Bool
deriving DecidableEq, Repr

/-- Model of `sleep(ctx, d)`: first component is `sleep`'s return value
(`false` iff the context was cancelled), second is the time slept (a
non-positive duration sleeps not at all). -/
def sleepM (cancelled : Bool) (d : Int) : Bool × Int :=
  if d ≤ 0 then (!cancelled, 0)
  else if cancelled then (false, 0)
  else (true, d)

inductive IterResult where
  /-- `sleep` returned `false`: the loop returns and `defer close(s.c)`
  closes the tick channel. -/
  | exited
  /-- The bounded-ceiling branch: slept `scheduleMaxSleepTime`, no tick,
  `n` unchanged, loop continues. -/
  | ceilingSlept (n : Int)
  /-- Slept the remainder, delivered the tick (the blocking send
  completed), recomputed the next occurrence. -/
  | delivered (slept : Int) (tick : Int) (next : Int)
deriving DecidableEq, Repr

/-- One iteration of `Scheduler.scheduler`'s `for` loop.  Note that the
send `s.c <- n` is a plain channel send with no `select` on
`ctx.Done()`: its completion (and hence the iteration's outcome) does
not depend on `inp.cancelSend`. -/
def schedIter (next : Int → Int) (n : Int) (inp : IterInput) : IterResult :=
  if scheduleMaxSleepTime ≤ n - inp.now then
    if (sleepM inp.cancelSleep scheduleMaxSleepTime).1 then .ceilingSlept n else .exited
  else
    if (sleepM inp.cancelSleep (n - inp.now)).1 then
      .delivered (sleepM inp.cancelSleep (n - inp.now)).2 n (next n)
    else .exited

/-- A finite run of the loop: the ticks delivered, and whether the loop
exited (closing the tick channel). -/
def schedRun (next : Int → Int) : Int → List IterInput → List Int × Bool
  | _, [] => ([], false)
  | n, inp :: rest =>
    match schedIter next n inp with
    | .exited => ([], true)
    | .ceilingSlept n' => schedRun next n' rest
    | .delivered _ t n' =>
      ((t :: (schedRun next n' rest).1), (schedRun next n' rest).2)

/-- The scheduled occurrences: `n`, `next n`, `next (next n)`, ... -/
def orbit (next : Int → Int) : Int → Nat → List Int
  | _, 0 => []
  | n, k + 1 => n :: orbit next (next n) k

/-! ## Error-message facts of the grammar -/

/-- Substring test (used to state that an error message names a
field). -/
def hasSubstr (needle : List Char) : List Char → Bool
  | [] => needle.isEmpty
  | c :: rest => needle.isPrefixOf (c :: rest) || hasSubstr needle rest

theorem daysInMonth_lb (y m : Int) : 28 ≤ daysInMonth y m := by
  unfold daysInMonth; split <;> split <;> omega

theorem daysInMonth_ub (y m : Int) : daysInMonth y m ≤ 31 := by
  unfold daysInMonth; split <;> split <;> omega

theorem GoTime.tod_bounds {t : GoTime} (h : t.Valid) :
    0 ≤ t.tod ∧ t.tod < nsPerDay := by
  obtain ⟨_, _, _, _, h1, h2, h3, h4, h5, h6, h7, h8⟩ := h
  simp only [GoTime.tod, nsPerDay, nsPerHour, nsPerMinute, nsPerSecond] at *
  constructor <;> nlinarith

theorem nextCalDay_dkey {y m d : Int} (h : DateValid y m d) :
    dkey y m d + 1 ≤ dkey (nextCalDay y m d).1 (nextCalDay y m d).2.1 (nextCalDay y m d).2.2 := by
  obtain ⟨h1, h2, h3, h4⟩ := h
  have hub := daysInMonth_ub y m
  unfold nextCalDay dkey
  split
  · simp; omega
  · split <;> simp <;> omega

theorem nextCalDay_valid {y m d : Int} (h : DateValid y m d) :
    DateValid (nextCalDay y m d).1 (nextCalDay y m d).2.1 (nextCalDay y m d).2.2 := by
  obtain ⟨h1, h2, h3, h4⟩ := h
  unfold nextCalDay
  split
  · rename_i hlt
    show DateValid y m (d + 1)
    exact ⟨h1, h2, by omega, by omega⟩
  · split
    · rename_i hm
      show DateValid y (m + 1) 1
      have := daysInMonth_lb y (m + 1)
      exact ⟨by omega, by omega, by omega, by omega⟩
    · show DateValid (y + 1) 1 1
      have := daysInMonth_lb (y + 1) 1
      exact ⟨by omega, by omega, by omega, by omega⟩

theorem addDaysNat_dkey {y m d : Int} (k : Nat) (h : DateValid y m d) :
    dkey y m d + k ≤
      dkey (addDaysNat y m d k).1 (addDaysNat y m d k).2.1 (addDaysNat y m d k).2.2 ∧
    DateValid (addDaysNat y m d k).1 (addDaysNat y m d k).2.1 (addDaysNat y m d k).2.2 := by
  induction k generalizing y m d with
  | zero => simpa [addDaysNat] using h
  | succ n ih =>
    have hv := nextCalDay_valid h
    have hk := nextCalDay_dkey h
    have := ih hv
    simp only [addDaysNat]
    constructor
    · calc dkey y m d + (n + 1 : ℕ) ≤
            dkey (nextCalDay y m d).1 (nextCalDay y m d).2.1 (nextCalDay y m d).2.2 + n := by
              push_cast; omega
        _ ≤ _ := this.1
    · exact this.2

theorem fixDayUpF_valid :
    ∀ (fuel : Nat) {y m d : Int}, 1 ≤ m → m ≤ 12 → 1 ≤ d →
      d ≤ daysInMonth y m + 28 * fuel →
      DateValid (fixDayUpF fuel y m d).1 (fixDayUpF fuel y m d).2.1
        (fixDayUpF fuel y m d).2.2 := by
  intro fuel
  induction fuel with
  | zero =>
    intro y m d hm1 hm2 hd hfuel
    show DateValid y m d
    exact ⟨hm1, hm2, hd, by omega⟩
  | succ n ih =>
    intro y m d hm1 hm2 hd hfuel
    show DateValid (fixDayUpF (n + 1) y m d).1 _ _
    rw [fixDayUpF]
    split
    · rename_i hlt
      have h28 := daysInMonth_lb y m
      split
      · rename_i hm12
        simp only [beq_iff_eq] at hm12
        refine ih (by omega) (by omega) (by omega) ?_
        have h28' := daysInMonth_lb (y + 1) 1
        omega
      · rename_i hm12
        simp only [beq_iff_eq] at hm12
        refine ih (by omega) (by omega) (by omega) ?_
        have h28' := daysInMonth_lb y (m + 1)
        omega
    · rename_i hle
      show DateValid y m d
      exact ⟨hm1, hm2, hd, by omega⟩

theorem fixDayUp_valid {y m d : Int} (hm1 : 1 ≤ m) (hm2 : m ≤ 12) (hd : 1 ≤ d) :
    DateValid (fixDayUp y m d).1 (fixDayUp y m d).2.1 (fixDayUp y m d).2.2 := by
  refine fixDayUpF_valid d.toNat hm1 hm2 hd ?_
  have h28 := daysInMonth_lb y m
  omega

theorem fixDayUpF_dkey :
    ∀ (fuel : Nat) (y m d : Int),
      dkey y m d ≤ dkey (fixDayUpF fuel y m d).1 (fixDayUpF fuel y m d).2.1
        (fixDayUpF fuel y m d).2.2 := by
  intro fuel
  induction fuel with
  | zero => intro y m d; exact le_refl _
  | succ n ih =>
    intro y m d
    show dkey y m d ≤ dkey (fixDayUpF (n + 1) y m d).1 _ _
    rw [fixDayUpF]
    split
    · rename_i hlt
      have h28 := daysInMonth_lb y m
      have h31 := daysInMonth_ub y m
      split
      · rename_i hm12
        simp only [beq_iff_eq] at hm12
        calc dkey y m d ≤ dkey (y + 1) 1 (d - daysInMonth y m) := by
              unfold dkey; omega
          _ ≤ _ := ih (y + 1) 1 (d - daysInMonth y m)
      · calc dkey y m d ≤ dkey y (m + 1) (d - daysInMonth y m) := by
              unfold dkey; omega
          _ ≤ _ := ih y (m + 1) (d - daysInMonth y m)
    · exact le_refl _

theorem fixDayUp_dkey {y m d : Int} :
    dkey y m d ≤ dkey (fixDayUp y m d).1 (fixDayUp y m d).2.1 (fixDayUp y m d).2.2 :=
  fixDayUpF_dkey d.toNat y m d

theorem fixDayDownF_valid :
    ∀ (fuel : Nat) {y m d : Int}, 1 ≤ m → m ≤ 12 → d ≤ daysInMonth y m →
      1 - 28 * fuel ≤ d →
      DateValid (fixDayDownF fuel y m d).1 (fixDayDownF fuel y m d).2.1
        (fixDayDownF fuel y m d).2.2 := by
  intro fuel
  induction fuel with
  | zero =>
    intro y m d hm1 hm2 hd hfuel
    show DateValid y m d
    exact ⟨hm1, hm2, by omega, hd⟩
  | succ n ih =>
    intro y m d hm1 hm2 hd hfuel
    show DateValid (fixDayDownF (n + 1) y m d).1 _ _
    rw [fixDayDownF]
    split
    · rename_i hlt
      split
      · rename_i hm1'
        simp only [beq_iff_eq] at hm1'
        have h28 := daysInMonth_lb (y - 1) 12
        exact ih (by omega) (by omega) (by omega) (by omega)
      · rename_i hm1'
        simp only [beq_iff_eq] at hm1'
        have h28 := daysInMonth_lb y (m - 1)
        exact ih (by omega) (by omega) (by omega) (by omega)
    · rename_i hge
      show DateValid y m d
      exact ⟨hm1, hm2, by omega, hd⟩

theorem fixDayDown_valid {y m d : Int} (hm1 : 1 ≤ m) (hm2 : m ≤ 12)
    (hd : d ≤ daysInMonth y m) :
    DateValid (fixDayDown y m d).1 (fixDayDown y m d).2.1 (fixDayDown y m d).2.2 :=
  fixDayDownF_valid (1 - d).toNat hm1 hm2 hd (by omega)

theorem normMonth_bounds (y m : Int) :
    1 ≤ (normMonth y m).2 ∧ (normMonth y m).2 ≤ 12 := by
  unfold normMonth
  simp
  omega

theorem fixDay_valid {y m d : Int} (hm1 : 1 ≤ m) (hm2 : m ≤ 12) :
    DateValid (fixDay y m d).1 (fixDay y m d).2.1 (fixDay y m d).2.2 := by
  unfold fixDay
  split
  · exact fixDayDown_valid hm1 hm2 (by have := daysInMonth_lb y m; omega)
  · exact fixDayUp_valid hm1 hm2 (by omega)

theorem goDate_valid (y m d h mi s ns : Int) : (goDate y m d h mi s ns).Valid := by
  unfold goDate GoTime.Valid
  have hb := normMonth_bounds y m
  have hv := fixDay_valid (y := (normMonth y m).1) (d := d + (h + (mi + (s + ns / nsPerSecond) / 60) / 60) / 24) hb.1 hb.2
  obtain ⟨v1, v2, v3, v4⟩ := hv
  refine ⟨v1, v2, v3, v4, ?_⟩
  simp only [nsPerSecond] at *
  omega

/-- With a zero clock, `goDate` keeps the clock at zero and only
normalizes the date. -/
theorem goDate_zero (y m d : Int) :
    goDate y m d 0 0 0 0 =
      ⟨(fixDay (normMonth y m).1 (normMonth y m).2 d).1,
       (fixDay (normMonth y m).1 (normMonth y m).2 d).2.1,
       (fixDay (normMonth y m).1 (normMonth y m).2 d).2.2, 0, 0, 0, 0⟩ := by
  unfold goDate
  norm_num

theorem normMonth_dkey (y m d : Int) (hm : 1 ≤ m) :
    dkey y m d ≤ dkey (normMonth y m).1 (normMonth y m).2 d := by
  unfold normMonth dkey
  simp
  omega

/-- Key lower bound for a zero-clock `goDate`: at least the raw `dkey`
of the requested components (month may be 13, a day may overflow). -/
theorem goDate_zero_key_ge {y m d : Int} (hm : 1 ≤ m) (hd : 1 ≤ d) :
    dkey y m d * nsPerDay ≤ (goDate y m d 0 0 0 0).key := by
  rw [goDate_zero]
  unfold GoTime.key GoTime.tod
  simp only []
  have h1 := normMonth_dkey y m d hm
  have h2 : dkey (normMonth y m).1 (normMonth y m).2 d ≤
      dkey (fixDay (normMonth y m).1 (normMonth y m).2 d).1
        (fixDay (normMonth y m).1 (normMonth y m).2 d).2.1
        (fixDay (normMonth y m).1 (normMonth y m).2 d).2.2 := by
    unfold fixDay
    split
    · omega
    · exact fixDayUp_dkey
  have hpos : (0:Int) < nsPerDay := by unfold nsPerDay nsPerHour nsPerMinute nsPerSecond; norm_num
  nlinarith [h1, h2]

theorem goDate_zero_valid_clock (y m d : Int) :
    (goDate y m d 0 0 0 0).hour = 0 ∧ (goDate y m d 0 0 0 0).minute = 0 ∧
    (goDate y m d 0 0 0 0).sec = 0 ∧ (goDate y m d 0 0 0 0).nsec = 0 := by
  rw [goDate_zero]
  exact ⟨rfl, rfl, rfl, rfl⟩

theorem GoTime.dateValid {t : GoTime} (h : t.Valid) : DateValid t.year t.month t.day := by
  obtain ⟨h1, h2, h3, h4, _⟩ := h
  exact ⟨h1, h2, h3, h4⟩

/-- The clock rebuilt by `addNanos` realizes exactly the normalized
nanosecond-of-day. -/
theorem addNanos_tod (t : GoTime) (delta : Int) :
    (t.addNanos delta).tod = (t.tod + delta) % nsPerDay := by
  show (t.tod + delta) % nsPerDay / nsPerHour * nsPerHour +
      (t.tod + delta) % nsPerDay % nsPerHour / nsPerMinute * nsPerMinute +
      (t.tod + delta) % nsPerDay % nsPerMinute / nsPerSecond * nsPerSecond +
      (t.tod + delta) % nsPerDay % nsPerSecond = (t.tod + delta) % nsPerDay
  simp only [nsPerDay, nsPerHour, nsPerMinute, nsPerSecond]
  omega

theorem addNanos_key_ge {t : GoTime} (h : t.Valid) (delta : Int)
    (hnn : 0 ≤ t.tod + delta) :
    t.key + delta ≤ (t.addNanos delta).key := by
  have htod := addNanos_tod t delta
  have hdk := addDaysNat_dkey (y := t.year) (m := t.month) (d := t.day)
    ((t.tod + delta) / nsPerDay).toNat (GoTime.dateValid h)
  have hday : (0:Int) < nsPerDay := by
    unfold nsPerDay nsPerHour nsPerMinute nsPerSecond; norm_num
  have hcarry : 0 ≤ (t.tod + delta) / nsPerDay := Int.ediv_nonneg hnn (le_of_lt hday)
  have haddd : addDaysInt t.year t.month t.day ((t.tod + delta) / nsPerDay) =
      addDaysNat t.year t.month t.day ((t.tod + delta) / nsPerDay).toNat := by
    unfold addDaysInt
    rw [if_pos hcarry]
  have hkey : (t.addNanos delta).key =
      dkey (addDaysNat t.year t.month t.day ((t.tod + delta) / nsPerDay).toNat).1
        (addDaysNat t.year t.month t.day ((t.tod + delta) / nsPerDay).toNat).2.1
        (addDaysNat t.year t.month t.day ((t.tod + delta) / nsPerDay).toNat).2.2 * nsPerDay +
        (t.addNanos delta).tod := by
    unfold GoTime.key
    rw [← haddd]
    rfl
  rw [hkey, htod]
  have hediv : (t.tod + delta) % nsPerDay =
      t.tod + delta - (t.tod + delta) / nsPerDay * nsPerDay := by
    rw [Int.emod_def]
    ring
  have htn : (((t.tod + delta) / nsPerDay).toNat : Int) = (t.tod + delta) / nsPerDay := by
    omega
  have h1 := hdk.1
  rw [htn] at h1
  unfold GoTime.key
  nlinarith [h1, hediv, hday]

theorem addNanos_valid {t : GoTime} (h : t.Valid) (delta : Int)
    (hnn : 0 ≤ t.tod + delta) :
    (t.addNanos delta).Valid := by
  have hdk := addDaysNat_dkey (y := t.year) (m := t.month) (d := t.day)
    ((t.tod + delta) / nsPerDay).toNat (GoTime.dateValid h)
  obtain ⟨v1, v2, v3, v4⟩ := hdk.2
  have hday : (0:Int) < nsPerDay := by
    unfold nsPerDay nsPerHour nsPerMinute nsPerSecond; norm_num
  have hcarry : 0 ≤ (t.tod + delta) / nsPerDay := Int.ediv_nonneg hnn (le_of_lt hday)
  have haddd : addDaysInt t.year t.month t.day ((t.tod + delta) / nsPerDay) =
      addDaysNat t.year t.month t.day ((t.tod + delta) / nsPerDay).toNat := by
    unfold addDaysInt
    rw [if_pos hcarry]
  unfold GoTime.Valid
  simp only [GoTime.addNanos, haddd]
  refine ⟨v1, v2, v3, v4, ?_⟩
  simp only [nsPerDay, nsPerHour, nsPerMinute, nsPerSecond] at *
  omega

theorem addNanos_nsec (t : GoTime) (delta : Int) :
    (t.addNanos delta).nsec = (t.tod + delta) % nsPerSecond := by
  show (t.tod + delta) % nsPerDay % nsPerSecond = _
  simp only [nsPerDay, nsPerHour, nsPerMinute, nsPerSecond]
  omega

theorem headI_mem {l : List Int} (h : l ≠ []) : l.headI ∈ l := by
  cases l with
  | nil => exact absurd rfl h
  | cons a l => exact List.mem_cons_self a l

/-! ### Per-step lemmas for the next-occurrence algorithm -/

theorem nsPerDay_pos : (0:Int) < nsPerDay := by
  unfold nsPerDay nsPerHour nsPerMinute nsPerSecond
  norm_num

theorem key_lt_goDate {t : GoTime} (h : t.Valid) {y m d : Int}
    (hm : 1 ≤ m) (hd : 1 ≤ d)
    (hgt : dkey t.year t.month t.day < dkey y m d) :
    t.key < (goDate y m d 0 0 0 0).key := by
  have h1 := goDate_zero_key_ge (y := y) hm hd
  have h2 := GoTime.tod_bounds h
  have h3 := nsPerDay_pos
  unfold GoTime.key at *
  nlinarith [h1, h2.1, h2.2, h3, hgt]

theorem nextMonth_spec {s : ScheduledTicker} {t : GoTime} (hwf : s.WF) (h : t.Valid) :
    (s.nextMonth t).Valid ∧ t.key < (s.nextMonth t).key := by
  have hm1 : 1 ≤ t.month := h.1
  have hm2 : t.month ≤ 12 := h.2.1
  have hd1 : 1 ≤ t.day := h.2.2.1
  have hd2 : t.day ≤ daysInMonth t.year t.month := h.2.2.2.1
  have hdub := daysInMonth_ub t.year t.month
  unfold ScheduledTicker.nextMonth
  split
  · refine ⟨goDate_valid _ _ _ _ _ _ _, key_lt_goDate h (by norm_num) (by norm_num) ?_⟩
    unfold dkey; omega
  · rename_i hne
    split
    · rename_i v heq
      have hv0 := List.find?_some heq
      simp only [decide_eq_true_eq] at hv0
      have hvm : v ∈ s.months := List.mem_of_find?_eq_some heq
      have hvr := hwf.2.2.2.2.1 v hvm
      refine ⟨goDate_valid _ _ _ _ _ _ _, key_lt_goDate h (by omega) (by norm_num) ?_⟩
      unfold dkey; omega
    · have hmem : s.months.headI ∈ s.months :=
        headI_mem (fun hnil => hne (by simp [hnil]))
      have hvr := hwf.2.2.2.2.1 _ hmem
      refine ⟨goDate_valid _ _ _ _ _ _ _, key_lt_goDate h (by omega) (by norm_num) ?_⟩
      unfold dkey; omega

theorem nextDay_spec {s : ScheduledTicker} {t : GoTime} (hwf : s.WF) (h : t.Valid) :
    (s.nextDay t).Valid ∧ t.key < (s.nextDay t).key := by
  have hm1 : 1 ≤ t.month := h.1
  have hm2 : t.month ≤ 12 := h.2.1
  have hd1 : 1 ≤ t.day := h.2.2.1
  have hd2 : t.day ≤ daysInMonth t.year t.month := h.2.2.2.1
  have hdub := daysInMonth_ub t.year t.month
  unfold ScheduledTicker.nextDay
  split
  · refine ⟨goDate_valid _ _ _ _ _ _ _, key_lt_goDate h hm1 (by omega) ?_⟩
    unfold dkey; omega
  · rename_i hne
    split
    · rename_i v heq
      have hv0 := List.find?_some heq
      simp only [decide_eq_true_eq] at hv0
      have hvm : v ∈ s.days := List.mem_of_find?_eq_some heq
      have hvr := hwf.2.2.2.1 v hvm
      refine ⟨goDate_valid _ _ _ _ _ _ _, key_lt_goDate h hm1 (by omega) ?_⟩
      unfold dkey; omega
    · have hmem : s.days.headI ∈ s.days :=
        headI_mem (fun hnil => hne (by simp [hnil]))
      have hvr := hwf.2.2.2.1 _ hmem
      refine ⟨goDate_valid _ _ _ _ _ _ _, key_lt_goDate h (by omega) (by omega) ?_⟩
      unfold dkey; omega

/-- The month and day jumps land exactly at midnight, by construction. -/
theorem nextMonth_clock (s : ScheduledTicker) (t : GoTime) :
    (s.nextMonth t).hour = 0 ∧ (s.nextMonth t).minute = 0 ∧
    (s.nextMonth t).sec = 0 ∧ (s.nextMonth t).nsec = 0 := by
  unfold ScheduledTicker.nextMonth
  split
  · exact goDate_zero_valid_clock _ _ _
  · split
    · exact goDate_zero_valid_clock _ _ _
    · exact goDate_zero_valid_clock _ _ _

theorem nextDay_clock (s : ScheduledTicker) (t : GoTime) :
    (s.nextDay t).hour = 0 ∧ (s.nextDay t).minute = 0 ∧
    (s.nextDay t).sec = 0 ∧ (s.nextDay t).nsec = 0 := by
  unfold ScheduledTicker.nextDay
  split
  · exact goDate_zero_valid_clock _ _ _
  · split
    · exact goDate_zero_valid_clock _ _ _
    · exact goDate_zero_valid_clock _ _ _

theorem addNanos_step {t : GoTime} (h : t.Valid) {delta : Int} (hpos : 0 < delta) :
    (t.addNanos delta).Valid ∧ t.key < (t.addNanos delta).key := by
  have htod := GoTime.tod_bounds h
  have hnn : 0 ≤ t.tod + delta := by omega
  have hk := addNanos_key_ge h delta hnn
  exact ⟨addNanos_valid h delta hnn, by omega⟩

theorem nextSecond_spec {s : ScheduledTicker} {t : GoTime} (hwf : s.WF) (h : t.Valid) :
    (s.nextSecond t).Valid ∧ t.key < (s.nextSecond t).key ∧ (s.nextSecond t).nsec = 0 := by
  obtain ⟨v1, v2, v3, v4, v5, v6, v7, v8, v9, v10, v11, v12⟩ := id h
  unfold ScheduledTicker.nextSecond
  split
  · have hpos : 0 < nsPerSecond - t.nsec := by
      simp only [nsPerSecond] at *; omega
    obtain ⟨ha, hb⟩ := addNanos_step h hpos
    refine ⟨ha, hb, addNanos_nsec t _ ▸ ?_⟩
    simp only [GoTime.tod, nsPerHour, nsPerMinute, nsPerSecond]
    omega
  · rename_i hne
    split
    · rename_i v heq
      have hv0 := List.find?_some heq
      simp only [decide_eq_true_eq] at hv0
      have hvr := hwf.1 v (List.mem_of_find?_eq_some heq)
      have hpos : 0 < (v - t.sec) * nsPerSecond - t.nsec := by
        simp only [nsPerSecond] at *; nlinarith
      obtain ⟨ha, hb⟩ := addNanos_step h hpos
      refine ⟨ha, hb, addNanos_nsec t _ ▸ ?_⟩
      simp only [GoTime.tod, nsPerHour, nsPerMinute, nsPerSecond]
      have hns : t.nsec < 1000000000 := by simp only [nsPerSecond] at v12; omega
      omega
    · have hmem : s.seconds.headI ∈ s.seconds :=
        headI_mem (fun hnil => hne (by simp [hnil]))
      have hvr := hwf.1 _ hmem
      have hpos : 0 < (secondsInMinute - t.sec + s.seconds.headI) * nsPerSecond - t.nsec := by
        simp only [nsPerSecond, secondsInMinute] at *; nlinarith
      obtain ⟨ha, hb⟩ := addNanos_step h hpos
      refine ⟨ha, hb, addNanos_nsec t _ ▸ ?_⟩
      simp only [GoTime.tod, nsPerHour, nsPerMinute, nsPerSecond, secondsInMinute]
      omega

theorem nextMinute_spec {s : ScheduledTicker} {t : GoTime} (hwf : s.WF) (h : t.Valid) :
    (s.nextMinute t).Valid ∧ t.key < (s.nextMinute t).key ∧ (s.nextMinute t).nsec = 0 := by
  obtain ⟨v1, v2, v3, v4, v5, v6, v7, v8, v9, v10, v11, v12⟩ := id h
  unfold ScheduledTicker.nextMinute
  split
  · have hpos : 0 < nsPerMinute - (t.sec * nsPerSecond + t.nsec) := by
      simp only [nsPerMinute, nsPerSecond] at *; nlinarith
    obtain ⟨ha, hb⟩ := addNanos_step h hpos
    refine ⟨ha, hb, addNanos_nsec t _ ▸ ?_⟩
    simp only [GoTime.tod, nsPerHour, nsPerMinute, nsPerSecond]
    omega
  · rename_i hne
    split
    · rename_i v heq
      have hv0 := List.find?_some heq
      simp only [decide_eq_true_eq] at hv0
      have hvr := hwf.2.1 v (List.mem_of_find?_eq_some heq)
      have hpos : 0 < (v - t.minute) * nsPerMinute - (t.sec * nsPerSecond + t.nsec) := by
        simp only [nsPerMinute, nsPerSecond] at *; nlinarith
      obtain ⟨ha, hb⟩ := addNanos_step h hpos
      refine ⟨ha, hb, addNanos_nsec t _ ▸ ?_⟩
      simp only [GoTime.tod, nsPerHour, nsPerMinute, nsPerSecond]
      have hc : 1 ≤ v - t.minute := by omega
      have hns : t.sec * 1000000000 + t.nsec < 60000000000 := by
        simp only [nsPerSecond] at *; nlinarith
      omega
    · have hmem : s.minutes.headI ∈ s.minutes :=
        headI_mem (fun hnil => hne (by simp [hnil]))
      have hvr := hwf.2.1 _ hmem
      have hpos : 0 < (minutesInHour - t.minute + s.minutes.headI) * nsPerMinute -
          (t.sec * nsPerSecond + t.nsec) := by
        simp only [nsPerMinute, nsPerSecond, minutesInHour] at *; nlinarith
      obtain ⟨ha, hb⟩ := addNanos_step h hpos
      refine ⟨ha, hb, addNanos_nsec t _ ▸ ?_⟩
      simp only [GoTime.tod, nsPerHour, nsPerMinute, nsPerSecond, minutesInHour]
      omega

theorem nextHour_spec {s : ScheduledTicker} {t : GoTime} (hwf : s.WF) (h : t.Valid) :
    (s.nextHour t).Valid ∧ t.key < (s.nextHour t).key ∧ (s.nextHour t).nsec = 0 := by
  obtain ⟨v1, v2, v3, v4, v5, v6, v7, v8, v9, v10, v11, v12⟩ := id h
  unfold ScheduledTicker.nextHour
  split
  · have hpos : 0 < nsPerHour - (t.minute * nsPerMinute + t.sec * nsPerSecond + t.nsec) := by
      simp only [nsPerHour, nsPerMinute, nsPerSecond] at *; nlinarith
    obtain ⟨ha, hb⟩ := addNanos_step h hpos
    refine ⟨ha, hb, addNanos_nsec t _ ▸ ?_⟩
    simp only [GoTime.tod, nsPerHour, nsPerMinute, nsPerSecond]
    omega
  · rename_i hne
    split
    · rename_i v heq
      have hv0 := List.find?_some heq
      simp only [decide_eq_true_eq] at hv0
      have hvr := hwf.2.2.1 v (List.mem_of_find?_eq_some heq)
      have hpos : 0 < (v - t.hour) * nsPerHour -
          (t.minute * nsPerMinute + t.sec * nsPerSecond + t.nsec) := by
        simp only [nsPerHour, nsPerMinute, nsPerSecond] at *; nlinarith
      obtain ⟨ha, hb⟩ := addNanos_step h hpos
      refine ⟨ha, hb, addNanos_nsec t _ ▸ ?_⟩
      simp only [GoTime.tod, nsPerHour, nsPerMinute, nsPerSecond]
      have hc : 1 ≤ v - t.hour := by omega
      omega
    · have hmem : s.hours.headI ∈ s.hours :=
        headI_mem (fun hnil => hne (by simp [hnil]))
      have hvr := hwf.2.2.1 _ hmem
      have hpos : 0 < (hoursInDay - t.hour + s.hours.headI) * nsPerHour -
          (t.minute * nsPerMinute + t.sec * nsPerSecond + t.nsec) := by
        simp only [nsPerHour, nsPerMinute, nsPerSecond, hoursInDay] at *; nlinarith
      obtain ⟨ha, hb⟩ := addNanos_step h hpos
      refine ⟨ha, hb, addNanos_nsec t _ ▸ ?_⟩
      simp only [GoTime.tod, nsPerHour, nsPerMinute, nsPerSecond, hoursInDay]
      omega

/-- Invariant of the `Next` fixed-point loop: a terminating run
starting from a valid whole-second instant returns a valid whole-second
instant no earlier than the start that satisfies all six per-field
match predicates. -/
theorem nextLoop_spec {s : ScheduledTicker} (hwf : s.WF) :
    ∀ (fuel : Nat) (t r : GoTime), t.Valid → t.nsec = 0 →
      s.nextLoop fuel t = some r →
      r.Valid ∧ t.key ≤ r.key ∧ r.nsec = 0 ∧
      s.matchMonth r = true ∧ s.matchWeekday r = true ∧ s.matchDay r = true ∧
      s.matchHour r = true ∧ s.matchMinute r = true ∧ s.matchSecond r = true := by
  intro fuel
  induction fuel with
  | zero =>
    intro t r _ _ habs
    exact absurd habs (by simp [ScheduledTicker.nextLoop])
  | succ n ih =>
    intro t r hv hns hr
    rw [ScheduledTicker.nextLoop] at hr
    split at hr
    · obtain ⟨ha, hb⟩ := nextMonth_spec hwf hv
      have hz := (nextMonth_clock s t).2.2.2
      have hrec := ih _ r ha hz hr
      exact ⟨hrec.1, le_trans (le_of_lt hb) hrec.2.1, hrec.2.2⟩
    · rename_i hc1
      split at hr
      · obtain ⟨ha, hb⟩ := nextDay_spec hwf hv
        have hz := (nextDay_clock s t).2.2.2
        have hrec := ih _ r ha hz hr
        exact ⟨hrec.1, le_trans (le_of_lt hb) hrec.2.1, hrec.2.2⟩
      · rename_i hc2
        split at hr
        · obtain ⟨ha, hb, hz⟩ := nextHour_spec hwf hv
          have hrec := ih _ r ha hz hr
          exact ⟨hrec.1, le_trans (le_of_lt hb) hrec.2.1, hrec.2.2⟩
        · rename_i hc3
          split at hr
          · obtain ⟨ha, hb, hz⟩ := nextMinute_spec hwf hv
            have hrec := ih _ r ha hz hr
            exact ⟨hrec.1, le_trans (le_of_lt hb) hrec.2.1, hrec.2.2⟩
          · rename_i hc4
            split at hr
            · obtain ⟨ha, hb, hz⟩ := nextSecond_spec hwf hv
              have hrec := ih _ r ha hz hr
              exact ⟨hrec.1, le_trans (le_of_lt hb) hrec.2.1, hrec.2.2⟩
            · rename_i hc5
              injection hr with htr
              subst htr
              have m1 : s.matchMonth t = true := by
                revert hc1; cases s.matchMonth t <;> simp
              have m2 : s.matchWeekday t = true ∧ s.matchDay t = true := by
                revert hc2
                cases s.matchWeekday t <;> cases s.matchDay t <;> simp
              have m4 : s.matchHour t = true := by
                revert hc3; cases s.matchHour t <;> simp
              have m5 : s.matchMinute t = true := by
                revert hc4; cases s.matchMinute t <;> simp
              have m6 : s.matchSecond t = true := by
                revert hc5; cases s.matchSecond t <;> simp
              exact ⟨hv, le_refl _, hns, m1, m2.1, m2.2, m4, m5, m6⟩

/-- A terminating `Next` run from a valid instant: the result is valid,
strictly later, a whole second, and matches every field predicate. -/
theorem next_spec {s : ScheduledTicker} (hwf : s.WF) {fuel : Nat} {t r : GoTime}
    (hv : t.Valid) (hr : s.next fuel t = some r) :
    r.Valid ∧ t.key < r.key ∧ r.nsec = 0 ∧
    s.matchMonth r = true ∧ s.matchWeekday r = true ∧ s.matchDay r = true ∧
    s.matchHour r = true ∧ s.matchMinute r = true ∧ s.matchSecond r = true := by
  unfold ScheduledTicker.next at hr
  obtain ⟨ha, hb, hz⟩ := nextSecond_spec hwf hv
  have hrec := nextLoop_spec hwf fuel _ r ha hz hr
  exact ⟨hrec.1, lt_of_lt_of_le hb hrec.2.1, hrec.2.2⟩

/-! ## List lemmas for the grammar and printer -/

theorem splitOnChar_no_sep {sep : Char} :
    ∀ {l : List Char}, (∀ c ∈ l, c ≠ sep) → splitOnChar sep l = [l]
  | [], _ => rfl
  | c :: rest, h => by
    have hc : c ≠ sep := h c (by simp)
    have ih := splitOnChar_no_sep (l := rest) (fun x hx => h x (by simp [hx]))
    simp only [splitOnChar, if_neg hc, ih]

theorem splitOnChar_append_sep {sep : Char} :
    ∀ {xs : List Char} (ys : List Char), (∀ c ∈ xs, c ≠ sep) →
      splitOnChar sep (xs ++ sep :: ys) = xs :: splitOnChar sep ys
  | [], ys, _ => by simp [splitOnChar]
  | c :: xs, ys, h => by
    have hc : c ≠ sep := h c (by simp)
    have ih := @splitOnChar_append_sep sep xs ys (fun x hx => h x (by simp [hx]))
    simp only [List.cons_append, splitOnChar, if_neg hc, List.append_eq, ih]

theorem joinComma_mem :
    ∀ {ps : List (List Char)} {c : Char}, c ∈ joinComma ps → c = ',' ∨ ∃ p ∈ ps, c ∈ p
  | [], c, h => absurd h (List.not_mem_nil c)
  | [x], c, h => .inr ⟨x, by simp, by simpa [joinComma] using h⟩
  | x :: y :: xs, c, h => by
    simp only [joinComma, List.mem_append, List.mem_cons] at h
    rcases h with h | h | h
    · exact .inr ⟨x, by simp, h⟩
    · exact .inl h
    · rcases joinComma_mem h with h | ⟨p, hp, hc⟩
      · exact .inl h
      · exact .inr ⟨p, by simp [hp], hc⟩

theorem splitOnChar_joinComma :
    ∀ {ps : List (List Char)}, ps ≠ [] → (∀ p ∈ ps, ∀ c ∈ p, c ≠ ',') →
      splitOnChar ',' (joinComma ps) = ps
  | [], h, _ => absurd rfl h
  | [p], _, h => by
    simp only [joinComma]
    exact splitOnChar_no_sep (h p (by simp))
  | p :: q :: rest, _, h => by
    have ih := @splitOnChar_joinComma (q :: rest) (by simp)
      (fun x hx => h x (by simp [hx]))
    show splitOnChar ',' (p ++ ',' :: joinComma (q :: rest)) = _
    rw [splitOnChar_append_sep _ (h p (by simp)), ih]

theorem trimSuffix_append (l : List Char) (c : Char) : trimSuffix (l ++ [c]) [c] = l := by
  unfold trimSuffix
  rw [if_pos (by simp [List.isSuffixOf, List.isPrefixOf])]
  simp

theorem mapME_of_forall {fn : List Char → Except (List Char) Int} {g : Int → List Char} :
    ∀ {l : List Int}, (∀ x ∈ l, fn (g x) = .ok x) → mapME fn (l.map g) = .ok l
  | [], _ => rfl
  | x :: xs, h => by
    have hx := h x (by simp)
    have ih := mapME_of_forall (l := xs) (fun y hy => h y (by simp [hy]))
    simp only [List.map_cons, mapME, hx, ih]

theorem mapME_ok_mem {fn : List Char → Except (List Char) Int} :
    ∀ {ps : List (List Char)} {vs : List Int}, mapME fn ps = .ok vs →
      ∀ v ∈ vs, ∃ p ∈ ps, fn p = .ok v := by
  intro ps
  induction ps with
  | nil =>
    intro vs h v hv
    simp only [mapME] at h
    injection h with h
    subst h
    simp at hv
  | cons p ps ih =>
    intro vs h v hv
    simp only [mapME] at h
    cases hfp : fn p with
    | error e => rw [hfp] at h; cases h
    | ok w =>
      rw [hfp] at h
      cases hrec : mapME fn ps with
      | error e => rw [hrec] at h; cases h
      | ok ws =>
        rw [hrec] at h
        injection h with h
        subst h
        rcases List.mem_cons.mp hv with rfl | hv'
        · exact ⟨p, by simp, hfp⟩
        · obtain ⟨q, hq, hfq⟩ := ih hrec v hv'
          exact ⟨q, by simp [hq], hfq⟩

theorem uniqueAux_sublist : ∀ (l seen : List Int), List.Sublist (uniqueAux l seen) l
  | [], _ => List.Sublist.refl []
  | v :: rest, seen => by
    simp only [uniqueAux]
    split
    · exact List.Sublist.cons v (uniqueAux_sublist rest seen)
    · exact List.Sublist.cons₂ v (uniqueAux_sublist rest (v :: seen))

theorem uniqueAux_nodup : ∀ (l seen : List Int),
    (uniqueAux l seen).Nodup ∧ ∀ x ∈ uniqueAux l seen, x ∉ seen := by
  intro l
  induction l with
  | nil => intro seen; exact ⟨List.nodup_nil, by simp [uniqueAux]⟩
  | cons v rest ih =>
    intro seen
    simp only [uniqueAux]
    split
    · exact ih seen
    · rename_i hnin
      obtain ⟨h1, h2⟩ := ih (v :: seen)
      constructor
      · refine List.nodup_cons.mpr ⟨?_, h1⟩
        intro hv
        exact h2 v hv (by simp)
      · intro x hx
        rcases List.mem_cons.mp hx with rfl | hx'
        · exact hnin
        · intro hxs
          exact h2 x hx' (by simp [hxs])

theorem uniqueAux_eq_self : ∀ (l seen : List Int), l.Nodup → (∀ x ∈ l, x ∉ seen) →
    uniqueAux l seen = l := by
  intro l
  induction l with
  | nil => intro seen _ _; rfl
  | cons v rest ih =>
    intro seen hnd hdis
    simp only [uniqueAux]
    rw [if_neg (hdis v (by simp))]
    congr 1
    apply ih
    · exact (List.nodup_cons.mp hnd).2
    · intro x hx hmem
      rcases List.mem_cons.mp hmem with rfl | hseen
      · exact (List.nodup_cons.mp hnd).1 hx
      · exact hdis x (by simp [hx]) hseen

theorem sorted_lt_of_le_nodup {l : List Int} (h1 : l.Sorted (· ≤ ·)) (h2 : l.Nodup) :
    l.Sorted (· < ·) :=
  (List.Pairwise.and h1 h2).imp (fun h => lt_of_le_of_ne h.1 h.2)

theorem nodup_bounded_length {l : List Int} {lo hi : Int} (hlo : lo ≤ hi) (hnd : l.Nodup)
    (hb : ∀ v ∈ l, lo ≤ v ∧ v ≤ hi) : (l.length : Int) ≤ hi - lo + 1 := by
  have hsub : l.toFinset ⊆ Finset.Icc lo hi := by
    intro x hx
    rw [List.mem_toFinset] at hx
    exact Finset.mem_Icc.mpr ⟨(hb x hx).1, (hb x hx).2⟩
  have hcard := Finset.card_le_card hsub
  rw [List.toFinset_card_of_nodup hnd, Int.card_Icc] at hcard
  omega

/-! ## Rendering facts (established by finite check) -/

theorem parseSecond_fin : ∀ n : Fin 60, parseSecond (intToChars n.val) = .ok n.val := by
  decide

theorem parseMinute_fin : ∀ n : Fin 60, parseMinute (intToChars n.val) = .ok n.val := by
  decide

theorem parseHour_fin : ∀ n : Fin 24, parseHour (intToChars n.val) = .ok n.val := by
  decide

theorem parseDay_fin : ∀ n : Fin 31, parseDay (intToChars (n.val + 1)) = .ok (n.val + 1) := by
  decide

theorem parseMonth_fin : ∀ n : Fin 12, parseMonth (monthName (n.val + 1)) = .ok (n.val + 1) := by
  decide

theorem parseWeekday_fin : ∀ n : Fin 7, parseWeekday (weekdayName n.val) = .ok n.val := by
  decide

theorem intToChars_fin :
    ∀ n : Fin 61, intToChars n.val ≠ [] ∧
      ∀ c ∈ intToChars n.val, c ≠ ' ' ∧ c ≠ ',' ∧ c ≠ '*' := by
  decide

theorem monthName_fin :
    ∀ n : Fin 12, monthName (n.val + 1) ≠ [] ∧
      ∀ c ∈ monthName (n.val + 1), c ≠ ' ' ∧ c ≠ ',' ∧ c ≠ '*' := by
  decide

theorem weekdayName_fin :
    ∀ n : Fin 7, weekdayName n.val ≠ [] ∧
      ∀ c ∈ weekdayName n.val, c ≠ ' ' ∧ c ≠ ',' ∧ c ≠ '*' := by
  decide

theorem intToChars_chars {v : Int} (h0 : 0 ≤ v) (h1 : v ≤ 60) :
    intToChars v ≠ [] ∧ ∀ c ∈ intToChars v, c ≠ ' ' ∧ c ≠ ',' ∧ c ≠ '*' := by
  have hfact := intToChars_fin ⟨v.toNat, by omega⟩
  have hv : ((v.toNat : Nat) : Int) = v := Int.toNat_of_nonneg h0
  rwa [hv] at hfact

theorem monthName_chars {v : Int} (h0 : 1 ≤ v) (h1 : v ≤ 12) :
    monthName v ≠ [] ∧ ∀ c ∈ monthName v, c ≠ ' ' ∧ c ≠ ',' ∧ c ≠ '*' := by
  have hfact := monthName_fin ⟨(v - 1).toNat, by omega⟩
  have hv : (((v - 1).toNat : Nat) : Int) + 1 = v := by omega
  rwa [hv] at hfact

theorem weekdayName_chars {v : Int} (h0 : 0 ≤ v) (h1 : v ≤ 6) :
    weekdayName v ≠ [] ∧ ∀ c ∈ weekdayName v, c ≠ ' ' ∧ c ≠ ',' ∧ c ≠ '*' := by
  have hfact := weekdayName_fin ⟨v.toNat, by omega⟩
  have hv : ((v.toNat : Nat) : Int) = v := Int.toNat_of_nonneg h0
  rwa [hv] at hfact

theorem parseSecond_render {v : Int} (h0 : 0 ≤ v) (h1 : v < 60) :
    parseSecond (intToChars v) = .ok v := by
  have hfact := parseSecond_fin ⟨v.toNat, by omega⟩
  have hv : ((v.toNat : Nat) : Int) = v := Int.toNat_of_nonneg h0
  rwa [hv] at hfact

theorem parseMinute_render {v : Int} (h0 : 0 ≤ v) (h1 : v < 60) :
    parseMinute (intToChars v) = .ok v := by
  have hfact := parseMinute_fin ⟨v.toNat, by omega⟩
  have hv : ((v.toNat : Nat) : Int) = v := Int.toNat_of_nonneg h0
  rwa [hv] at hfact

theorem parseHour_render {v : Int} (h0 : 0 ≤ v) (h1 : v < 24) :
    parseHour (intToChars v) = .ok v := by
  have hfact := parseHour_fin ⟨v.toNat, by omega⟩
  have hv : ((v.toNat : Nat) : Int) = v := Int.toNat_of_nonneg h0
  rwa [hv] at hfact

theorem parseDay_render {v : Int} (h0 : 1 ≤ v) (h1 : v ≤ 31) :
    parseDay (intToChars v) = .ok v := by
  have hfact := parseDay_fin ⟨(v - 1).toNat, by omega⟩
  have hv : (((v - 1).toNat : Nat) : Int) + 1 = v := by omega
  rwa [hv] at hfact

theorem parseMonth_render {v : Int} (h0 : 1 ≤ v) (h1 : v ≤ 12) :
    parseMonth (monthName v) = .ok v := by
  have hfact := parseMonth_fin ⟨(v - 1).toNat, by omega⟩
  have hv : (((v - 1).toNat : Nat) : Int) + 1 = v := by omega
  rwa [hv] at hfact

theorem parseWeekday_render {v : Int} (h0 : 0 ≤ v) (h1 : v ≤ 6) :
    parseWeekday (weekdayName v) = .ok v := by
  have hfact := parseWeekday_fin ⟨v.toNat, by omega⟩
  have hv : ((v.toNat : Nat) : Int) = v := Int.toNat_of_nonneg h0
  rwa [hv] at hfact

/-! ## Round-trip of one field through the printer and `parsePart` -/

theorem trimSuffix_nil (l : List Char) : trimSuffix l [] = l := by
  unfold trimSuffix
  rw [if_pos (by simp [List.isSuffixOf, List.isPrefixOf])]
  simp

theorem uniqueInts_sortInts_eq {l : List Int} (hs : l.Sorted (· < ·)) :
    uniqueInts (sortInts l) = l := by
  have hle : l.Sorted (· ≤ ·) := hs.imp le_of_lt
  have hnd : l.Nodup := hs.imp (fun h => ne_of_lt h)
  unfold sortInts uniqueInts
  rw [List.Sorted.insertionSort_eq hle]
  exact uniqueAux_eq_self l [] hnd (by simp)

theorem joinComma_ne_nil :
    ∀ {ps : List (List Char)}, ps ≠ [] → (∀ p ∈ ps, p ≠ []) → joinComma ps ≠ []
  | [], h, _ => absurd rfl h
  | [p], _, h => by simpa [joinComma] using h p (by simp)
  | p :: q :: rest, _, h => by
    show p ++ ',' :: joinComma (q :: rest) ≠ []
    simp

/-- Reparsing a rendered non-month field (`writeNums` plus the
conventional suffix) recovers the stored list. -/
theorem parsePart_render_suffix {l : List Int} {suf : Char}
    {fn : List Char → Except (List Char) Int}
    (hb : ∀ v ∈ l, 0 ≤ v ∧ v ≤ 60)
    (hfn : ∀ v ∈ l, fn (intToChars v) = .ok v)
    (hs : l.Sorted (· < ·)) :
    parsePart (writeNums l ++ [suf]) [suf] fn = .ok l := by
  unfold parsePart
  rw [trimSuffix_append]
  by_cases hl : l = []
  · subst hl
    unfold writeNums
    simp
  · have hchars : ∀ v ∈ l, intToChars v ≠ [] ∧
        ∀ c ∈ intToChars v, c ≠ ' ' ∧ c ≠ ',' ∧ c ≠ '*' :=
      fun v hv => intToChars_chars (hb v hv).1 (hb v hv).2
    have hwn : writeNums l = joinComma (l.map intToChars) := by
      unfold writeNums
      rw [if_neg (by simpa using hl)]
    rw [hwn]
    have hstar : joinComma (l.map intToChars) ≠ ['*'] := by
      intro heq
      have hmem : ('*' : Char) ∈ joinComma (l.map intToChars) := by rw [heq]; simp
      rcases joinComma_mem hmem with h | ⟨p, hp, hc⟩
      · exact absurd h (by decide)
      · obtain ⟨v, hv, rfl⟩ := List.mem_map.mp hp
        exact ((hchars v hv).2 _ hc).2.2 rfl
    rw [if_neg hstar]
    rw [splitOnChar_joinComma (by simpa using hl)
      (fun p hp c hc => by
        obtain ⟨v, hv, rfl⟩ := List.mem_map.mp hp
        exact ((hchars v hv).2 c hc).2.1)]
    rw [mapME_of_forall hfn]
    show (if l.length = 1 then Except.ok l else Except.ok (uniqueInts (sortInts l))) = .ok l
    split
    · rfl
    · rw [uniqueInts_sortInts_eq hs]

/-- Reparsing a rendered name field (months or weekdays, no suffix)
recovers the stored list. -/
theorem parsePart_render_names {g : Int → List Char}
    {fn : List Char → Except (List Char) Int} {l : List Int}
    (hg : ∀ v ∈ l, g v ≠ [] ∧ ∀ c ∈ g v, c ≠ ',' ∧ c ≠ '*')
    (hfn : ∀ v ∈ l, fn (g v) = .ok v)
    (hs : l.Sorted (· < ·)) :
    parsePart (if l.isEmpty then ['*'] else joinComma (l.map g)) [] fn = .ok l := by
  unfold parsePart
  rw [trimSuffix_nil]
  by_cases hl : l = []
  · subst hl
    simp
  · have hni : ¬(l.isEmpty = true) := by simpa using hl
    rw [if_neg hni]
    have hstar : joinComma (l.map g) ≠ ['*'] := by
      intro heq
      have hmem : ('*' : Char) ∈ joinComma (l.map g) := by rw [heq]; simp
      rcases joinComma_mem hmem with h | ⟨p, hp, hc⟩
      · exact absurd h (by decide)
      · obtain ⟨v, hv, rfl⟩ := List.mem_map.mp hp
        exact ((hg v hv).2 _ hc).2 rfl
    rw [if_neg hstar]
    rw [splitOnChar_joinComma (by simpa using hl)
      (fun p hp c hc => by
        obtain ⟨v, hv, rfl⟩ := List.mem_map.mp hp
        exact ((hg v hv).2 c hc).1)]
    rw [mapME_of_forall hfn]
    show (if l.length = 1 then Except.ok l else Except.ok (uniqueInts (sortInts l))) = .ok l
    split
    · rfl
    · rw [uniqueInts_sortInts_eq hs]

/-! ## What a successful parse guarantees about each field -/

theorem parseSecond_range {x : List Char} {v : Int} (h : parseSecond x = .ok v) :
    0 ≤ v ∧ v ≤ 59 := by
  unfold parseSecond at h
  repeat' split at h
  · cases h
  · cases h
  · rename_i hcond
    injection h with h
    subst h
    have c1 : secondsInMinute = (60 : Int) := rfl
    omega

theorem parseMinute_range {x : List Char} {v : Int} (h : parseMinute x = .ok v) :
    0 ≤ v ∧ v ≤ 59 := by
  unfold parseMinute at h
  repeat' split at h
  · cases h
  · cases h
  · rename_i hcond
    injection h with h
    subst h
    have c1 : minutesInHour = (60 : Int) := rfl
    omega

theorem parseHour_range {x : List Char} {v : Int} (h : parseHour x = .ok v) :
    0 ≤ v ∧ v ≤ 23 := by
  unfold parseHour at h
  repeat' split at h
  · cases h
  · cases h
  · rename_i hcond
    injection h with h
    subst h
    have c1 : hoursInDay = (24 : Int) := rfl
    omega

theorem parseDay_range {x : List Char} {v : Int} (h : parseDay x = .ok v) :
    1 ≤ v ∧ v ≤ 31 := by
  unfold parseDay at h
  repeat' split at h
  · cases h
  · cases h
  · rename_i hcond
    injection h with h
    subst h
    have c1 : maxDaysInMonth = (31 : Int) := rfl
    omega

theorem lookupTok_mem :
    ∀ {table : List (List (List Char) × Int)} {x : List Char} {v : Int},
      lookupTok x table = some v → v ∈ table.map Prod.snd := by
  intro table
  induction table with
  | nil => intro x v h; cases h
  | cons row rest ih =>
    intro x v h
    obtain ⟨names, w⟩ := row
    rw [lookupTok] at h
    split at h
    · simp only [Option.some.injEq] at h
      subst h
      simp
    · simp only [List.map_cons, List.mem_cons]
      exact .inr (ih h)

theorem parseMonth_range {x : List Char} {v : Int} (h : parseMonth x = .ok v) :
    1 ≤ v ∧ v ≤ 12 := by
  unfold parseMonth at h
  cases hl : lookupTok x monthTable with
  | none => rw [hl] at h; cases h
  | some w =>
    rw [hl] at h
    injection h with h
    subst h
    have hmem := lookupTok_mem hl
    have hall : ∀ u ∈ monthTable.map Prod.snd, 1 ≤ u ∧ u ≤ 12 := by decide
    exact hall w hmem

theorem parseWeekday_range {x : List Char} {v : Int} (h : parseWeekday x = .ok v) :
    0 ≤ v ∧ v ≤ 6 := by
  unfold parseWeekday at h
  cases hl : lookupTok x weekdayTable with
  | none => rw [hl] at h; cases h
  | some w =>
    rw [hl] at h
    injection h with h
    subst h
    have hmem := lookupTok_mem hl
    have hall : ∀ u ∈ weekdayTable.map Prod.snd, 0 ≤ u ∧ u ≤ 6 := by decide
    exact hall w hmem

/-- Everything `parsePart` promises about a successfully parsed field:
sorted strictly ascending, duplicate-free, and in the value range of
the supplied element parser. -/
theorem parsePart_ok {part suf : List Char} {fn : List Char → Except (List Char) Int}
    {lo hi : Int} (hfn : ∀ x v, fn x = .ok v → lo ≤ v ∧ v ≤ hi)
    {l : List Int} (h : parsePart part suf fn = .ok l) :
    l.Sorted (· < ·) ∧ l.Nodup ∧ ∀ v ∈ l, lo ≤ v ∧ v ≤ hi := by
  unfold parsePart at h
  split at h
  · injection h with h
    subst h
    exact ⟨by simp, by simp, by simp⟩
  · cases hm : mapME fn (splitOnChar ',' (trimSuffix part suf)) with
    | error e => rw [hm] at h; cases h
    | ok nums =>
      rw [hm] at h
      have hmem : ∀ v ∈ nums, lo ≤ v ∧ v ≤ hi := by
        intro v hv
        obtain ⟨p, _, hp⟩ := mapME_ok_mem hm v hv
        exact hfn p v hp
      change (if nums.length = 1 then Except.ok nums
        else Except.ok (uniqueInts (sortInts nums))) = Except.ok l at h
      split at h
      · injection h with h
        subst h
        rename_i hlen
        obtain ⟨a, rfl⟩ := List.length_eq_one.mp hlen
        exact ⟨by simp, by simp, hmem⟩
      · injection h with h
        subst h
        have hsle : (sortInts nums).Sorted (· ≤ ·) := List.sorted_insertionSort _ nums
        have hsub := uniqueAux_sublist (sortInts nums) []
        have hle : (uniqueInts (sortInts nums)).Sorted (· ≤ ·) := hsle.sublist hsub
        have hnd : (uniqueInts (sortInts nums)).Nodup := (uniqueAux_nodup (sortInts nums) []).1
        refine ⟨sorted_lt_of_le_nodup hle hnd, hnd, ?_⟩
        intro v hv
        have hv1 : v ∈ sortInts nums := hsub.mem hv
        have hv2 : v ∈ nums := (List.perm_insertionSort _ nums).mem_iff.mp hv1
        exact hmem v hv2

theorem collapseFull_fieldOk {l : List Int} {lo hi card : Int} (hlo : lo ≤ hi)
    (hcard : card = hi - lo + 1)
    (hok : l.Sorted (· < ·) ∧ l.Nodup ∧ ∀ v ∈ l, lo ≤ v ∧ v ≤ hi) :
    FieldOk (collapseFull l card) lo hi := by
  subst hcard
  obtain ⟨h1, h2, h3⟩ := hok
  have hlen := nodup_bounded_length hlo h2 h3
  unfold collapseFull
  split
  · exact ⟨by simp, by simp, by simp; omega⟩
  · rename_i hne
    exact ⟨h1, h3, by omega⟩

/-! ## Facts established by `ScheduledTicker.parse` -/

theorem parse_fields {spec : List Char} {s : ScheduledTicker}
    (hp : ScheduledTicker.parse spec = .ok s) :
    ∃ l1 l2 l3 l4 l5 l6,
      parsePart ((splitOnChar ' ' spec).getD 0 []) ['s'] parseSecond = .ok l1 ∧
      (if 2 ≤ (splitOnChar ' ' spec).length then
        parsePart ((splitOnChar ' ' spec).getD 1 []) ['m'] parseMinute else .ok []) = .ok l2 ∧
      (if 3 ≤ (splitOnChar ' ' spec).length then
        parsePart ((splitOnChar ' ' spec).getD 2 []) ['h'] parseHour else .ok []) = .ok l3 ∧
      (if 4 ≤ (splitOnChar ' ' spec).length then
        parsePart ((splitOnChar ' ' spec).getD 3 []) ['d'] parseDay else .ok []) = .ok l4 ∧
      (if 5 ≤ (splitOnChar ' ' spec).length then
        parsePart ((splitOnChar ' ' spec).getD 4 []) [] parseMonth else .ok []) = .ok l5 ∧
      (if 6 ≤ (splitOnChar ' ' spec).length then
        parsePart ((splitOnChar ' ' spec).getD 5 []) [] parseWeekday else .ok []) = .ok l6 ∧
      s = ⟨collapseFull l1 secondsInMinute, collapseFull l2 minutesInHour,
           collapseFull l3 hoursInDay, collapseFull l4 maxDaysInMonth,
           collapseFull l5 monthsInYear, collapseFull l6 daysInWeek⟩ := by
  unfold ScheduledTicker.parse at hp
  split at hp
  · cases hp
  · split at hp
    · cases hp
    · split at hp
      · cases hp
      · rename_i l1 h1
        split at hp
        · cases hp
        · rename_i l2 h2
          split at hp
          · cases hp
          · rename_i l3 h3
            split at hp
            · cases hp
            · rename_i l4 h4
              split at hp
              · cases hp
              · rename_i l5 h5
                split at hp
                · cases hp
                · rename_i l6 h6
                  injection hp with hp
                  exact ⟨l1, l2, l3, l4, l5, l6, h1, h2, h3, h4, h5, h6, hp.symm⟩

theorem parsePartOpt_ok {cond : Prop} [Decidable cond] {part suf : List Char}
    {fn : List Char → Except (List Char) Int} {lo hi : Int}
    (hfn : ∀ x v, fn x = .ok v → lo ≤ v ∧ v ≤ hi) {l : List Int}
    (h : (if cond then parsePart part suf fn else .ok []) = .ok l) :
    l.Sorted (· < ·) ∧ l.Nodup ∧ ∀ v ∈ l, lo ≤ v ∧ v ≤ hi := by
  split at h
  · exact parsePart_ok hfn h
  · injection h with h
    subst h
    exact ⟨by simp, by simp, by simp⟩

/-- A successful parse leaves every field strictly sorted, in range,
and strictly below its full cardinality. -/
theorem parse_fieldOk {spec : List Char} {s : ScheduledTicker}
    (hp : ScheduledTicker.parse spec = .ok s) :
    FieldOk s.seconds 0 59 ∧ FieldOk s.minutes 0 59 ∧ FieldOk s.hours 0 23 ∧
    FieldOk s.days 1 31 ∧ FieldOk s.months 1 12 ∧ FieldOk s.weekdays 0 6 := by
  obtain ⟨l1, l2, l3, l4, l5, l6, h1, h2, h3, h4, h5, h6, hs⟩ := parse_fields hp
  subst hs
  refine ⟨?_, ?_, ?_, ?_, ?_, ?_⟩
  · exact collapseFull_fieldOk (by norm_num) (by norm_num [secondsInMinute])
      (parsePart_ok (fun x v h => parseSecond_range h) h1)
  · exact collapseFull_fieldOk (by norm_num) (by norm_num [minutesInHour])
      (parsePartOpt_ok (fun x v h => parseMinute_range h) h2)
  · exact collapseFull_fieldOk (by norm_num) (by norm_num [hoursInDay])
      (parsePartOpt_ok (fun x v h => parseHour_range h) h3)
  · exact collapseFull_fieldOk (by norm_num) (by norm_num [maxDaysInMonth])
      (parsePartOpt_ok (fun x v h => parseDay_range h) h4)
  · exact collapseFull_fieldOk (by norm_num) (by norm_num [monthsInYear])
      (parsePartOpt_ok (fun x v h => parseMonth_range h) h5)
  · exact collapseFull_fieldOk (by norm_num) (by norm_num [daysInWeek])
      (parsePartOpt_ok (fun x v h => parseWeekday_range h) h6)

/-- A parsed schedule is well-formed in the sense needed by the
next-occurrence algorithm. -/
theorem parse_wf {spec : List Char} {s : ScheduledTicker}
    (hp : ScheduledTicker.parse spec = .ok s) : s.WF := by
  obtain ⟨f1, f2, f3, f4, f5, f6⟩ := parse_fieldOk hp
  refine ⟨?_, ?_, ?_, ?_, ?_, ?_⟩
  · intro v hv; have := f1.2.1 v hv; omega
  · intro v hv; have := f2.2.1 v hv; omega
  · intro v hv; have := f3.2.1 v hv; omega
  · intro v hv; have := f4.2.1 v hv; omega
  · intro v hv; have := f5.2.1 v hv; omega
  · intro v hv; have := f6.2.1 v hv; omega

/-! ## The printed form reparses to the same schedule -/

theorem writeNums_no_space {l : List Int} (hb : ∀ v ∈ l, 0 ≤ v ∧ v ≤ 60) :
    ∀ c ∈ writeNums l, c ≠ ' ' := by
  intro c hc
  unfold writeNums at hc
  split at hc
  · simp only [List.mem_singleton] at hc
    subst hc
    decide
  · rcases joinComma_mem hc with h | ⟨p, hp, hcp⟩
    · subst h; decide
    · obtain ⟨v, hv, rfl⟩ := List.mem_map.mp hp
      exact ((intToChars_chars (hb v hv).1 (hb v hv).2).2 c hcp).1

theorem writeMonths_no_space {l : List Int} (hb : ∀ v ∈ l, 1 ≤ v ∧ v ≤ 12) :
    ∀ c ∈ writeMonths l, c ≠ ' ' := by
  intro c hc
  unfold writeMonths at hc
  split at hc
  · simp only [List.mem_singleton] at hc
    subst hc
    decide
  · rcases joinComma_mem hc with h | ⟨p, hp, hcp⟩
    · subst h; decide
    · obtain ⟨v, hv, rfl⟩ := List.mem_map.mp hp
      exact ((monthName_chars (hb v hv).1 (hb v hv).2).2 c hcp).1

theorem writeWeekdays_no_space {l : List Int} (hb : ∀ v ∈ l, 0 ≤ v ∧ v ≤ 6) :
    ∀ c ∈ writeWeekdays l, c ≠ ' ' := by
  intro c hc
  unfold writeWeekdays at hc
  split at hc
  · simp only [List.mem_singleton] at hc
    subst hc
    decide
  · rcases joinComma_mem hc with h | ⟨p, hp, hcp⟩
    · subst h; decide
    · obtain ⟨v, hv, rfl⟩ := List.mem_map.mp hp
      exact ((weekdayName_chars (hb v hv).1 (hb v hv).2).2 c hcp).1

theorem collapseFull_eq_self {l : List Int} {card : Int}
    (h : (l.length : Int) ≠ card) : collapseFull l card = l := by
  unfold collapseFull
  rw [if_neg h]

/-- The six whitespace-separated fields of the printed form. -/
theorem string_split {s : ScheduledTicker}
    (hb1 : ∀ v ∈ s.seconds, 0 ≤ v ∧ v ≤ 60) (hb2 : ∀ v ∈ s.minutes, 0 ≤ v ∧ v ≤ 60)
    (hb3 : ∀ v ∈ s.hours, 0 ≤ v ∧ v ≤ 60) (hb4 : ∀ v ∈ s.days, 0 ≤ v ∧ v ≤ 60)
    (hb5 : ∀ v ∈ s.months, 1 ≤ v ∧ v ≤ 12) (hb6 : ∀ v ∈ s.weekdays, 0 ≤ v ∧ v ≤ 6) :
    splitOnChar ' ' s.string =
      [writeNums s.seconds ++ ['s'], writeNums s.minutes ++ ['m'],
       writeNums s.hours ++ ['h'], writeNums s.days ++ ['d'],
       writeMonths s.months, writeWeekdays s.weekdays] := by
  have hstr : s.string = (writeNums s.seconds ++ ['s']) ++ ' ' ::
      ((writeNums s.minutes ++ ['m']) ++ ' ' ::
      ((writeNums s.hours ++ ['h']) ++ ' ' ::
      ((writeNums s.days ++ ['d']) ++ ' ' ::
      (writeMonths s.months ++ ' ' :: writeWeekdays s.weekdays)))) := by
    unfold ScheduledTicker.string
    simp [List.append_assoc]
  have hf1 : ∀ c ∈ writeNums s.seconds ++ ['s'], c ≠ ' ' := by
    intro c hc
    rcases List.mem_append.mp hc with h | h
    · exact writeNums_no_space hb1 c h
    · simp only [List.mem_singleton] at h; subst h; decide
  have hf2 : ∀ c ∈ writeNums s.minutes ++ ['m'], c ≠ ' ' := by
    intro c hc
    rcases List.mem_append.mp hc with h | h
    · exact writeNums_no_space hb2 c h
    · simp only [List.mem_singleton] at h; subst h; decide
  have hf3 : ∀ c ∈ writeNums s.hours ++ ['h'], c ≠ ' ' := by
    intro c hc
    rcases List.mem_append.mp hc with h | h
    · exact writeNums_no_space hb3 c h
    · simp only [List.mem_singleton] at h; subst h; decide
  have hf4 : ∀ c ∈ writeNums s.days ++ ['d'], c ≠ ' ' := by
    intro c hc
    rcases List.mem_append.mp hc with h | h
    · exact writeNums_no_space hb4 c h
    · simp only [List.mem_singleton] at h; subst h; decide
  rw [hstr]
  rw [splitOnChar_append_sep _ hf1, splitOnChar_append_sep _ hf2,
    splitOnChar_append_sep _ hf3, splitOnChar_append_sep _ hf4,
    splitOnChar_append_sep _ (writeMonths_no_space hb5),
    splitOnChar_no_sep (writeWeekdays_no_space hb6)]

/-- Reparsing the normalized printed form of a parsed schedule yields
the schedule itself. -/
theorem parse_render {s : ScheduledTicker}
    (f1 : FieldOk s.seconds 0 59) (f2 : FieldOk s.minutes 0 59)
    (f3 : FieldOk s.hours 0 23) (f4 : FieldOk s.days 1 31)
    (f5 : FieldOk s.months 1 12) (f6 : FieldOk s.weekdays 0 6) :
    ScheduledTicker.parse s.string = .ok s := by
  have hb1 : ∀ v ∈ s.seconds, 0 ≤ v ∧ v ≤ 60 := fun v hv => by
    have := f1.2.1 v hv; omega
  have hb2 : ∀ v ∈ s.minutes, 0 ≤ v ∧ v ≤ 60 := fun v hv => by
    have := f2.2.1 v hv; omega
  have hb3 : ∀ v ∈ s.hours, 0 ≤ v ∧ v ≤ 60 := fun v hv => by
    have := f3.2.1 v hv; omega
  have hb4 : ∀ v ∈ s.days, 0 ≤ v ∧ v ≤ 60 := fun v hv => by
    have := f4.2.1 v hv; omega
  have hsplit := string_split hb1 hb2 hb3 hb4 f5.2.1 f6.2.1
  have hne : ¬(s.string.length = 0) := by
    intro h0
    have hnil : s.string = [] := List.length_eq_zero.mp h0
    rw [hnil] at hsplit
    simp [splitOnChar] at hsplit
  have hlen6 : (splitOnChar ' ' s.string).length = 6 := by rw [hsplit]; rfl
  have hg0 : (splitOnChar ' ' s.string).getD 0 [] = writeNums s.seconds ++ ['s'] := by
    rw [hsplit]
    rfl
  have hg1 : (splitOnChar ' ' s.string).getD 1 [] = writeNums s.minutes ++ ['m'] := by
    rw [hsplit]
    rfl
  have hg2 : (splitOnChar ' ' s.string).getD 2 [] = writeNums s.hours ++ ['h'] := by
    rw [hsplit]
    rfl
  have hg3 : (splitOnChar ' ' s.string).getD 3 [] = writeNums s.days ++ ['d'] := by
    rw [hsplit]
    rfl
  have hg4 : (splitOnChar ' ' s.string).getD 4 [] = writeMonths s.months := by
    rw [hsplit]
    rfl
  have hg5 : (splitOnChar ' ' s.string).getD 5 [] = writeWeekdays s.weekdays := by
    rw [hsplit]
    rfl
  have hsec : parsePart ((splitOnChar ' ' s.string).getD 0 []) ['s'] parseSecond =
      .ok s.seconds := by
    rw [hg0]
    exact parsePart_render_suffix hb1
      (fun v hv => parseSecond_render (f1.2.1 v hv).1 (by have := (f1.2.1 v hv).2; omega))
      f1.1
  have hmin : parsePart ((splitOnChar ' ' s.string).getD 1 []) ['m'] parseMinute =
      .ok s.minutes := by
    rw [hg1]
    exact parsePart_render_suffix hb2
      (fun v hv => parseMinute_render (f2.2.1 v hv).1 (by have := (f2.2.1 v hv).2; omega))
      f2.1
  have hhr : parsePart ((splitOnChar ' ' s.string).getD 2 []) ['h'] parseHour =
      .ok s.hours := by
    rw [hg2]
    exact parsePart_render_suffix hb3
      (fun v hv => parseHour_render (f3.2.1 v hv).1 (by have := (f3.2.1 v hv).2; omega))
      f3.1
  have hday : parsePart ((splitOnChar ' ' s.string).getD 3 []) ['d'] parseDay =
      .ok s.days := by
    rw [hg3]
    exact parsePart_render_suffix hb4
      (fun v hv => parseDay_render (f4.2.1 v hv).1 (f4.2.1 v hv).2)
      f4.1
  have hmon : parsePart ((splitOnChar ' ' s.string).getD 4 []) [] parseMonth =
      .ok s.months := by
    rw [hg4]
    have hwm : writeMonths s.months =
        (if s.months.isEmpty then ['*'] else joinComma (s.months.map monthName)) := rfl
    rw [hwm]
    refine parsePart_render_names ?_ ?_ f5.1
    · intro v hv
      have hc := monthName_chars (f5.2.1 v hv).1 (f5.2.1 v hv).2
      exact ⟨hc.1, fun c hcc => ⟨(hc.2 c hcc).2.1, (hc.2 c hcc).2.2⟩⟩
    · exact fun v hv => parseMonth_render (f5.2.1 v hv).1 (f5.2.1 v hv).2
  have hwd : parsePart ((splitOnChar ' ' s.string).getD 5 []) [] parseWeekday =
      .ok s.weekdays := by
    rw [hg5]
    have hww : writeWeekdays s.weekdays =
        (if s.weekdays.isEmpty then ['*'] else joinComma (s.weekdays.map weekdayName)) := rfl
    rw [hww]
    refine parsePart_render_names ?_ ?_ f6.1
    · intro v hv
      have hc := weekdayName_chars (f6.2.1 v hv).1 (f6.2.1 v hv).2
      exact ⟨hc.1, fun c hcc => ⟨(hc.2 c hcc).2.1, (hc.2 c hcc).2.2⟩⟩
    · exact fun v hv => parseWeekday_render (f6.2.1 v hv).1 (f6.2.1 v hv).2
  have hc1 : collapseFull s.seconds secondsInMinute = s.seconds :=
    collapseFull_eq_self (by
      have := f1.2.2
      have e : secondsInMinute = (60 : Int) := rfl
      omega)
  have hc2 : collapseFull s.minutes minutesInHour = s.minutes :=
    collapseFull_eq_self (by
      have := f2.2.2
      have e : minutesInHour = (60 : Int) := rfl
      omega)
  have hc3 : collapseFull s.hours hoursInDay = s.hours :=
    collapseFull_eq_self (by
      have := f3.2.2
      have e : hoursInDay = (24 : Int) := rfl
      omega)
  have hc4 : collapseFull s.days maxDaysInMonth = s.days :=
    collapseFull_eq_self (by
      have := f4.2.2
      have e : maxDaysInMonth = (31 : Int) := rfl
      omega)
  have hc5 : collapseFull s.months monthsInYear = s.months :=
    collapseFull_eq_self (by
      have := f5.2.2
      have e : monthsInYear = (12 : Int) := rfl
      omega)
  have hc6 : collapseFull s.weekdays daysInWeek = s.weekdays :=
    collapseFull_eq_self (by
      have := f6.2.2
      have e : daysInWeek = (7 : Int) := rfl
      omega)
  unfold ScheduledTicker.parse
  rw [if_neg hne, hlen6]
  rw [if_neg (by norm_num : ¬(6 < 6))]
  simp only [hsec]
  rw [if_pos (by norm_num : 2 ≤ 6)]
  simp only [hmin]
  rw [if_pos (by norm_num : 3 ≤ 6)]
  simp only [hhr]
  rw [if_pos (by norm_num : 4 ≤ 6)]
  simp only [hday]
  rw [if_pos (by norm_num : 5 ≤ 6)]
  simp only [hmon]
  rw [if_pos (by norm_num : 6 ≤ 6)]
  simp only [hwd]
  rw [hc1, hc2, hc3, hc4, hc5, hc6]

/-- Canonical form of one loop iteration: cancellation observed at the
sleep exits; a remaining duration at or above the ceiling sleeps the
ceiling and re-loops with `n` unchanged and no tick; otherwise the
iteration sleeps `max d 0` (no sleep at all when `d ≤ 0`), delivers `n`,
and recomputes the next occurrence from the delivered `n`.  The
`cancelSend` flag does not occur: the plain channel send ignores the
context. -/
theorem schedIter_eq (next : Int → Int) (n : Int) (inp : IterInput) :
    schedIter next n inp =
      if inp.cancelSleep = true then .exited
      else if scheduleMaxSleepTime ≤ n - inp.now then .ceilingSlept n
      else .delivered (max (n - inp.now) 0) n (next n) := by
  have hpos : (0:Int) < scheduleMaxSleepTime := by unfold scheduleMaxSleepTime; norm_num
  have hceil : ¬(scheduleMaxSleepTime ≤ 0) := by omega
  unfold schedIter sleepM
  cases hc : inp.cancelSleep <;>
    by_cases h1 : scheduleMaxSleepTime ≤ n - inp.now <;>
    by_cases h2 : n - inp.now ≤ 0 <;>
    (simp [h1, h2, hc, hceil]; try omega)

theorem schedIter_ceiling_inv {next : Int → Int} {n : Int} {inp : IterInput} {n' : Int}
    (h : schedIter next n inp = .ceilingSlept n') :
    n' = n ∧ inp.cancelSleep = false ∧ scheduleMaxSleepTime ≤ n - inp.now := by
  rw [schedIter_eq] at h
  split at h
  · cases h
  · split at h
    · injection h with h1
      rename_i hc hle
      exact ⟨h1.symm, by simpa using hc, hle⟩
    · cases h

theorem schedIter_delivered_inv {next : Int → Int} {n : Int} {inp : IterInput}
    {slept t n' : Int} (h : schedIter next n inp = .delivered slept t n') :
    slept = max (n - inp.now) 0 ∧ t = n ∧ n' = next n ∧
    inp.cancelSleep = false ∧ n - inp.now < scheduleMaxSleepTime := by
  rw [schedIter_eq] at h
  split at h
  · cases h
  · split at h
    · cases h
    · injection h with h1 h2 h3
      rename_i hc hlt
      exact ⟨h1.symm, h2.symm, h3.symm, by simpa using hc, by omega⟩

theorem schedIter_exited_inv {next : Int → Int} {n : Int} {inp : IterInput}
    (h : schedIter next n inp = .exited) : inp.cancelSleep = true := by
  rw [schedIter_eq] at h
  split at h
  · assumption
  · split at h <;> cases h

theorem schedRun_orbit (next : Int → Int) :
    ∀ (inputs : List IterInput) (n : Int),
      (schedRun next n inputs).1 = orbit next n (schedRun next n inputs).1.length := by
  intro inputs
  induction inputs with
  | nil => intro n; rfl
  | cons inp rest ih =>
    intro n
    rw [schedRun]
    split
    · rfl
    · rename_i n' heq
      rw [(schedIter_ceiling_inv heq).1]
      exact ih n
    · rename_i slept t n' heq
      have hinv := schedIter_delivered_inv heq
      rw [hinv.2.1, hinv.2.2.1]
      show n :: (schedRun next (next n) rest).1 =
        orbit next n ((n :: (schedRun next (next n) rest).1).length)
      rw [List.length_cons, orbit]
      exact congrArg (n :: ·) (ih (next n))

theorem schedRun_not_closed (next : Int → Int) :
    ∀ (inputs : List IterInput) (n : Int), (∀ i ∈ inputs, i.cancelSleep = false) →
      (schedRun next n inputs).2 = false := by
  intro inputs
  induction inputs with
  | nil => intro n _; rfl
  | cons inp rest ih =>
    intro n hall
    rw [schedRun]
    split
    · rename_i heq
      have hc := schedIter_exited_inv heq
      rw [hall inp (by simp)] at hc
      cases hc
    · rename_i n' heq
      rw [(schedIter_ceiling_inv heq).1]
      exact ih n (fun i hi => hall i (by simp [hi]))
    · rename_i slept t n' heq
      rw [(schedIter_delivered_inv heq).2.2.1]
      show (schedRun next (next n) rest).2 = false
      exact ih (next n) (fun i hi => hall i (by simp [hi]))

theorem schedRun_closes (next : Int → Int) :
    ∀ (inputs : List IterInput) (n : Int) (last : IterInput),
      (∀ i ∈ inputs, i.cancelSleep = false) → last.cancelSleep = true →
      (schedRun next n (inputs ++ [last])).2 = true := by
  intro inputs
  induction inputs with
  | nil =>
    intro n last _ hl
    rw [List.nil_append, schedRun, schedIter_eq, if_pos hl]
  | cons inp rest ih =>
    intro n last hall hl
    rw [List.cons_append, schedRun]
    split
    · rename_i heq
      have hc := schedIter_exited_inv heq
      rw [hall inp (by simp)] at hc
    · rename_i n' heq
      rw [(schedIter_ceiling_inv heq).1]
      exact ih n last (fun i hi => hall i (by simp [hi])) hl
    · rename_i slept t n' heq
      rw [(schedIter_delivered_inv heq).2.2.1]
      show (schedRun next (next n) (rest ++ [last])).2 = true
      exact ih (next n) last (fun i hi => hall i (by simp [hi])) hl

theorem hasSubstr_iff {n h : List Char} : hasSubstr n h = true ↔ n <:+: h := by
  induction h with
  | nil =>
    simp only [hasSubstr, List.isEmpty_iff, List.infix_nil]
  | cons c rest ih =>
    simp only [hasSubstr, Bool.or_eq_true, List.isPrefixOf_iff_prefix, ih,
      List.infix_cons_iff]

theorem hasSubstr_of_prefix {p e n : List Char} (hpe : p.isPrefixOf e = true)
    (hnp : hasSubstr n p = true) : hasSubstr n e = true := by
  rw [hasSubstr_iff] at *
  exact hnp.trans (List.isPrefixOf_iff_prefix.mp hpe).isInfix

theorem isPrefixOf_append (l r : List Char) : l.isPrefixOf (l ++ r) = true := by
  induction l with
  | nil => simp [List.isPrefixOf]
  | cons c cs ih => simp [List.isPrefixOf, ih]

theorem mapME_error {fn : List Char → Except (List Char) Int} :
    ∀ {ps : List (List Char)} {e : List Char}, mapME fn ps = .error e →
      ∃ p ∈ ps, fn p = .error e := by
  intro ps
  induction ps with
  | nil => intro e h; cases h
  | cons p rest ih =>
    intro e h
    simp only [mapME] at h
    cases hfp : fn p with
    | error e' =>
      rw [hfp] at h
      injection h with h
      subst h
      exact ⟨p, by simp, hfp⟩
    | ok v =>
      rw [hfp] at h
      cases hrec : mapME fn rest with
      | error e' =>
        rw [hrec] at h
        injection h with h
        subst h
        obtain ⟨q, hq, hfq⟩ := ih hrec
        exact ⟨q, by simp [hq], hfq⟩
      | ok vs => rw [hrec] at h; cases h

theorem parsePart_error {part suf : List Char} {fn : List Char → Except (List Char) Int}
    {e : List Char} (h : parsePart part suf fn = .error e) :
    ∃ p, fn p = .error e := by
  unfold parsePart at h
  split at h
  · cases h
  · cases hm : mapME fn (splitOnChar ',' (trimSuffix part suf)) with
    | error e' =>
      rw [hm] at h
      injection h with h
      subst h
      obtain ⟨p, _, hp⟩ := mapME_error hm
      exact ⟨p, hp⟩
    | ok nums =>
      rw [hm] at h
      change (if nums.length = 1 then Except.ok nums
        else Except.ok (uniqueInts (sortInts nums))) = Except.error e at h
      split at h <;> cases h

theorem parseSecond_error {x e : List Char} (h : parseSecond x = .error e) :
    ("timeutil: invalid second: ".toList).isPrefixOf e = true := by
  unfold parseSecond at h
  repeat' split at h
  · injection h with h
    subst h
    exact isPrefixOf_append _ _
  · injection h with h
    subst h
    exact isPrefixOf_append _ _
  · cases h

theorem parseMinute_error {x e : List Char} (h : parseMinute x = .error e) :
    ("timeutil: invalid minute: ".toList).isPrefixOf e = true := by
  unfold parseMinute at h
  repeat' split at h
  · injection h with h
    subst h
    exact isPrefixOf_append _ _
  · injection h with h
    subst h
    exact isPrefixOf_append _ _
  · cases h

theorem parseHour_error {x e : List Char} (h : parseHour x = .error e) :
    ("timeutil: invalid hour: ".toList).isPrefixOf e = true := by
  unfold parseHour at h
  repeat' split at h
  · injection h with h
    subst h
    exact isPrefixOf_append _ _
  · injection h with h
    subst h
    exact isPrefixOf_append _ _
  · cases h

theorem parseDay_error {x e : List Char} (h : parseDay x = .error e) :
    ("timeutil: invalid day: ".toList).isPrefixOf e = true := by
  unfold parseDay at h
  repeat' split at h
  · injection h with h
    subst h
    exact isPrefixOf_append _ _
  · injection h with h
    subst h
    exact isPrefixOf_append _ _
  · cases h

theorem parseMonth_error {x e : List Char} (h : parseMonth x = .error e) :
    ("timeutil: invalid month: ".toList).isPrefixOf e = true := by
  unfold parseMonth at h
  cases hl : lookupTok x monthTable with
  | none =>
    rw [hl] at h
    injection h with h
    subst h
    exact isPrefixOf_append _ _
  | some w => rw [hl] at h; cases h

theorem parseWeekday_error {x e : List Char} (h : parseWeekday x = .error e) :
    ("timeutil: invalid weekday: ".toList).isPrefixOf e = true := by
  unfold parseWeekday at h
  cases hl : lookupTok x weekdayTable with
  | none =>
    rw [hl] at h
    injection h with h
    subst h
    exact isPrefixOf_append _ _
  | some w => rw [hl] at h; cases h

theorem find_none_all_le {l : List Int} {b : Int}
    (h : l.find? (fun v => decide (b < v)) = none) : ∀ x ∈ l, x ≤ b := by
  intro x hx
  have := List.find?_eq_none.mp h x hx
  simpa using this

theorem isPrefixOf_weaken {a b e : List Char} (hab : a.isPrefixOf b = true)
    (hbe : b.isPrefixOf e = true) : a.isPrefixOf e = true := by
  rw [List.isPrefixOf_iff_prefix] at *
  exact hab.trans hbe

/-- Every parse error message begins with `timeutil: invalid `. -/
theorem parse_error_prefix {spec e : List Char}
    (hp : ScheduledTicker.parse spec = .error e) :
    ("timeutil: invalid ".toList).isPrefixOf e = true := by
  unfold ScheduledTicker.parse at hp
  split at hp
  · injection hp with hp
    subst hp
    decide
  · split at hp
    · injection hp with hp
      subst hp
      show ("timeutil: invalid ".toList).isPrefixOf
        ("timeutil: invalid ".toList ++ ("spec: ".toList ++ spec)) = true
      exact isPrefixOf_append _ _
    · split at hp
      · rename_i h1
        injection hp with hp
        subst hp
        obtain ⟨p, hfe⟩ := parsePart_error h1
        exact isPrefixOf_weaken (by decide) (parseSecond_error hfe)
      · rename_i l1 h1
        split at hp
        · rename_i h2
          injection hp with hp
          subst hp
          split at h2
          · obtain ⟨p, hfe⟩ := parsePart_error h2
            exact isPrefixOf_weaken (by decide) (parseMinute_error hfe)
          · cases h2
        · rename_i l2 h2
          split at hp
          · rename_i h3
            injection hp with hp
            subst hp
            split at h3
            · obtain ⟨p, hfe⟩ := parsePart_error h3
              exact isPrefixOf_weaken (by decide) (parseHour_error hfe)
            · cases h3
          · rename_i l3 h3
            split at hp
            · rename_i h4
              injection hp with hp
              subst hp
              split at h4
              · obtain ⟨p, hfe⟩ := parsePart_error h4
                exact isPrefixOf_weaken (by decide) (parseDay_error hfe)
              · cases h4
            · rename_i l4 h4
              split at hp
              · rename_i h5
                injection hp with hp
                subst hp
                split at h5
                · obtain ⟨p, hfe⟩ := parsePart_error h5
                  exact isPrefixOf_weaken (by decide) (parseMonth_error hfe)
                · cases h5
              · rename_i l5 h5
                split at hp
                · rename_i h6
                  injection hp with hp
                  subst hp
                  split at h6
                  · obtain ⟨p, hfe⟩ := parsePart_error h6
                    exact isPrefixOf_weaken (by decide) (parseWeekday_error hfe)
                  · cases h6
                · cases hp

/-- A nonempty specification of at most six fields whose present
fields all parse is accepted by `parse` (no other error cases exist). -/
theorem parse_ok_of_fields {spec : List Char} {l1 l2 l3 l4 l5 l6 : List Int}
    (hne : spec ≠ []) (hlen : (splitOnChar ' ' spec).length ≤ 6)
    (h1 : parsePart ((splitOnChar ' ' spec).getD 0 []) ['s'] parseSecond = .ok l1)
    (h2 : (if 2 ≤ (splitOnChar ' ' spec).length then
        parsePart ((splitOnChar ' ' spec).getD 1 []) ['m'] parseMinute else .ok []) = .ok l2)
    (h3 : (if 3 ≤ (splitOnChar ' ' spec).length then
        parsePart ((splitOnChar ' ' spec).getD 2 []) ['h'] parseHour else .ok []) = .ok l3)
    (h4 : (if 4 ≤ (splitOnChar ' ' spec).length then
        parsePart ((splitOnChar ' ' spec).getD 3 []) ['d'] parseDay else .ok []) = .ok l4)
    (h5 : (if 5 ≤ (splitOnChar ' ' spec).length then
        parsePart ((splitOnChar ' ' spec).getD 4 []) [] parseMonth else .ok []) = .ok l5)
    (h6 : (if 6 ≤ (splitOnChar ' ' spec).length then
        parsePart ((splitOnChar ' ' spec).getD 5 []) [] parseWeekday else .ok []) = .ok l6) :
    ScheduledTicker.parse spec =
      .ok ⟨collapseFull l1 secondsInMinute, collapseFull l2 minutesInHour,
           collapseFull l3 hoursInDay, collapseFull l4 maxDaysInMonth,
           collapseFull l5 monthsInYear, collapseFull l6 daysInWeek⟩ := by
  unfold ScheduledTicker.parse
  rw [if_neg (by simpa using hne)]
  rw [if_neg (by omega)]
  simp only [h1, h2, h3, h4, h5, h6]

/-! ## The claims -/

/-- C1: for every schedule built by a successful parse and every valid
timestamp for which `Next` terminates, the returned timestamp strictly
exceeds the input and satisfies all six per-field match predicates. -/
theorem C1_next_strictly_later_and_matches
    (spec : List Char) (s : ScheduledTicker) (fuel : Nat) (t r : GoTime)
    (hp : ScheduledTicker.parse spec = .ok s) (hv : t.Valid)
    (hr : s.next fuel t = some r) :
    t.key < r.key ∧
    s.matchSecond r = true ∧ s.matchMinute r = true ∧ s.matchHour r = true ∧
    s.matchDay r = true ∧ s.matchMonth r = true ∧ s.matchWeekday r = true := by
  have h := next_spec (parse_wf hp) hv hr
  exact ⟨h.2.1, h.2.2.2.2.2.2.2.2, h.2.2.2.2.2.2.2.1, h.2.2.2.2.2.2.1,
    h.2.2.2.2.2.1, h.2.2.2.1, h.2.2.2.2.1⟩

theorem C1_witness :
    (⟨2020, 1, 1, 0, 0, 0, 0⟩ : GoTime).key < (⟨2020, 1, 1, 1, 0, 0, 0⟩ : GoTime).key ∧
    ScheduledTicker.matchSecond ⟨[0], [0], [], [], [], []⟩ ⟨2020, 1, 1, 1, 0, 0, 0⟩ = true ∧
    ScheduledTicker.matchMinute ⟨[0], [0], [], [], [], []⟩ ⟨2020, 1, 1, 1, 0, 0, 0⟩ = true ∧
    ScheduledTicker.matchHour ⟨[0], [0], [], [], [], []⟩ ⟨2020, 1, 1, 1, 0, 0, 0⟩ = true ∧
    ScheduledTicker.matchDay ⟨[0], [0], [], [], [], []⟩ ⟨2020, 1, 1, 1, 0, 0, 0⟩ = true ∧
    ScheduledTicker.matchMonth ⟨[0], [0], [], [], [], []⟩ ⟨2020, 1, 1, 1, 0, 0, 0⟩ = true ∧
    ScheduledTicker.matchWeekday ⟨[0], [0], [], [], [], []⟩ ⟨2020, 1, 1, 1, 0, 0, 0⟩ = true :=
  C1_next_strictly_later_and_matches "0s 0m".toList ⟨[0], [0], [], [], [], []⟩ 5
    ⟨2020, 1, 1, 0, 0, 0, 0⟩ ⟨2020, 1, 1, 1, 0, 0, 0⟩ (by decide) (by decide) (by decide)

/-- C2: reparsing the normalized printed form of a successfully parsed
specification yields exactly the same schedule value. -/
theorem C2_parse_format_roundtrip (spec : List Char) (s : ScheduledTicker)
    (hp : ScheduledTicker.parse spec = .ok s) :
    ScheduledTicker.parse s.string = .ok s := by
  obtain ⟨f1, f2, f3, f4, f5, f6⟩ := parse_fieldOk hp
  exact parse_render f1 f2 f3 f4 f5 f6

theorem C2_witness :
    ScheduledTicker.parse (ScheduledTicker.string ⟨[0], [0, 30], [], [], [2], [3]⟩) =
      .ok ⟨[0], [0, 30], [], [], [2], [3]⟩ :=
  C2_parse_format_roundtrip "0s 0,30m *h *d feb wed".toList _ (by decide)

/-- C4: when both the day-of-month set and the weekday set are
non-wildcard, a timestamp returned by `Next` has its day in the day set
and its weekday in the weekday set (conjunctive, never the cron
day-or-weekday rule). -/
theorem C4_day_and_weekday_both_required
    (spec : List Char) (s : ScheduledTicker) (fuel : Nat) (t r : GoTime)
    (hp : ScheduledTicker.parse spec = .ok s)
    (hdays : s.days ≠ []) (hweek : s.weekdays ≠ [])
    (hv : t.Valid) (hr : s.next fuel t = some r) :
    r.day ∈ s.days ∧ r.weekday ∈ s.weekdays := by
  have h := next_spec (parse_wf hp) hv hr
  have hd := h.2.2.2.2.2.1
  have hw := h.2.2.2.2.1
  constructor
  · unfold ScheduledTicker.matchDay at hd
    rw [if_neg (by simpa using hdays)] at hd
    exact of_decide_eq_true hd
  · unfold ScheduledTicker.matchWeekday at hw
    rw [if_neg (by simpa using hweek)] at hw
    exact of_decide_eq_true hw

theorem C4_witness :
    (⟨2022, 1, 1, 0, 0, 0, 0⟩ : GoTime).day ∈ [(1 : Int)] ∧
    (⟨2022, 1, 1, 0, 0, 0, 0⟩ : GoTime).weekday ∈ [(6 : Int)] :=
  C4_day_and_weekday_both_required "0s 0m 0h 1d * sat".toList
    ⟨[0], [0], [0], [1], [], [6]⟩ 4 ⟨2021, 12, 31, 23, 59, 59, 0⟩ ⟨2022, 1, 1, 0, 0, 0, 0⟩
    (by decide) (by decide) (by decide) (by decide) (by decide)

/-- C5: a field whose (deduplicated) supplied value list enumerates the
field's entire legal range is stored as the wildcard (empty) set, which
the printer reports as an asterisk. -/
theorem C5_full_enumeration_collapses (spec : List Char) (s : ScheduledTicker)
    (hp : ScheduledTicker.parse spec = .ok s) :
    (∀ l, parsePart ((splitOnChar ' ' spec).getD 0 []) ['s'] parseSecond = .ok l →
      (l.length : Int) = secondsInMinute → s.seconds = [] ∧ writeNums s.seconds = ['*']) ∧
    (∀ l, (if 2 ≤ (splitOnChar ' ' spec).length then
        parsePart ((splitOnChar ' ' spec).getD 1 []) ['m'] parseMinute else .ok []) = .ok l →
      (l.length : Int) = minutesInHour → s.minutes = [] ∧ writeNums s.minutes = ['*']) ∧
    (∀ l, (if 3 ≤ (splitOnChar ' ' spec).length then
        parsePart ((splitOnChar ' ' spec).getD 2 []) ['h'] parseHour else .ok []) = .ok l →
      (l.length : Int) = hoursInDay → s.hours = [] ∧ writeNums s.hours = ['*']) ∧
    (∀ l, (if 4 ≤ (splitOnChar ' ' spec).length then
        parsePart ((splitOnChar ' ' spec).getD 3 []) ['d'] parseDay else .ok []) = .ok l →
      (l.length : Int) = maxDaysInMonth → s.days = [] ∧ writeNums s.days = ['*']) ∧
    (∀ l, (if 5 ≤ (splitOnChar ' ' spec).length then
        parsePart ((splitOnChar ' ' spec).getD 4 []) [] parseMonth else .ok []) = .ok l →
      (l.length : Int) = monthsInYear → s.months = [] ∧ writeMonths s.months = ['*']) ∧
    (∀ l, (if 6 ≤ (splitOnChar ' ' spec).length then
        parsePart ((splitOnChar ' ' spec).getD 5 []) [] parseWeekday else .ok []) = .ok l →
      (l.length : Int) = daysInWeek → s.weekdays = [] ∧ writeWeekdays s.weekdays = ['*']) := by
  obtain ⟨l1, l2, l3, l4, l5, l6, h1, h2, h3, h4, h5, h6, hs⟩ := parse_fields hp
  subst hs
  refine ⟨?_, ?_, ?_, ?_, ?_, ?_⟩
  · intro l hl hfull
    rw [h1] at hl
    injection hl with hl
    rw [← hl] at hfull
    show collapseFull l1 secondsInMinute = [] ∧ writeNums (collapseFull l1 secondsInMinute) = ['*']
    unfold collapseFull
    rw [if_pos hfull]
    exact ⟨rfl, rfl⟩
  · intro l hl hfull
    rw [h2] at hl
    injection hl with hl
    rw [← hl] at hfull
    show collapseFull l2 minutesInHour = [] ∧ writeNums (collapseFull l2 minutesInHour) = ['*']
    unfold collapseFull
    rw [if_pos hfull]
    exact ⟨rfl, rfl⟩
  · intro l hl hfull
    rw [h3] at hl
    injection hl with hl
    rw [← hl] at hfull
    show collapseFull l3 hoursInDay = [] ∧ writeNums (collapseFull l3 hoursInDay) = ['*']
    unfold collapseFull
    rw [if_pos hfull]
    exact ⟨rfl, rfl⟩
  · intro l hl hfull
    rw [h4] at hl
    injection hl with hl
    rw [← hl] at hfull
    show collapseFull l4 maxDaysInMonth = [] ∧ writeNums (collapseFull l4 maxDaysInMonth) = ['*']
    unfold collapseFull
    rw [if_pos hfull]
    exact ⟨rfl, rfl⟩
  · intro l hl hfull
    rw [h5] at hl
    injection hl with hl
    rw [← hl] at hfull
    show collapseFull l5 monthsInYear = [] ∧ writeMonths (collapseFull l5 monthsInYear) = ['*']
    unfold collapseFull
    rw [if_pos hfull]
    exact ⟨rfl, rfl⟩
  · intro l hl hfull
    rw [h6] at hl
    injection hl with hl
    rw [← hl] at hfull
    show collapseFull l6 daysInWeek = [] ∧ writeWeekdays (collapseFull l6 daysInWeek) = ['*']
    unfold collapseFull
    rw [if_pos hfull]
    exact ⟨rfl, rfl⟩

set_option maxRecDepth 8000 in

theorem C5_witness :
    (ScheduledTicker.mk [] [] [] [] [] []).seconds = [] ∧
    writeNums (ScheduledTicker.mk [] [] [] [] [] []).seconds = ['*'] :=
  (C5_full_enumeration_collapses "0,1,2,3,4,5,6,7,8,9,10,11,12,13,14,15,16,17,18,19,20,21,22,23,24,25,26,27,28,29,30,31,32,33,34,35,36,37,38,39,40,41,42,43,44,45,46,47,48,49,50,51,52,53,54,55,56,57,58,59".toList ⟨[], [], [], [], [], []⟩ (by decide)).1
    [0, 1, 2, 3, 4, 5, 6, 7, 8, 9, 10, 11, 12, 13, 14, 15, 16, 17, 18, 19, 20, 21, 22,
     23, 24, 25, 26, 27, 28, 29, 30, 31, 32, 33, 34, 35, 36, 37, 38, 39, 40, 41, 42,
     43, 44, 45, 46, 47, 48, 49, 50, 51, 52, 53, 54, 55, 56, 57, 58, 59]
    (by decide) (by decide)

/-- C3 counterexample: for the parsed schedule with hour set `{1}`,
from June 15 02:00:00 the hour step lands on June 16 at 01:00 — a
duration-based advance crossing midnight — neither staying within the
same calendar day nor bumping the day by construction to the next
midnight as the claim requires. -/
theorem C3_counterexample :
    ScheduledTicker.parse "*s *m 1h".toList = .ok ⟨[], [], [1], [], [], []⟩ ∧
    ScheduledTicker.matchHour ⟨[], [], [1], [], [], []⟩ ⟨2021, 6, 15, 2, 0, 0, 0⟩ = false ∧
    ScheduledTicker.nextHour ⟨[], [], [1], [], [], []⟩ ⟨2021, 6, 15, 2, 0, 0, 0⟩ =
      ⟨2021, 6, 16, 1, 0, 0, 0⟩ ∧
    ¬(((ScheduledTicker.nextHour ⟨[], [], [1], [], [], []⟩ ⟨2021, 6, 15, 2, 0, 0, 0⟩).year = 2021 ∧
       (ScheduledTicker.nextHour ⟨[], [], [1], [], [], []⟩ ⟨2021, 6, 15, 2, 0, 0, 0⟩).month = 6 ∧
       (ScheduledTicker.nextHour ⟨[], [], [1], [], [], []⟩ ⟨2021, 6, 15, 2, 0, 0, 0⟩).day = 15) ∨
      ScheduledTicker.nextHour ⟨[], [], [1], [], [], []⟩ ⟨2021, 6, 15, 2, 0, 0, 0⟩ =
        goDate 2021 6 16 0 0 0 0) := by
  decide

/-- C3 amended: the month and day jumps are calendar construction
landing exactly at midnight; the hour, minute and second advances are
duration additions computed from calendar fields, strictly positive and
bounded by one day, one hour and one minute respectively — in
particular the hour-step wrap past midnight is a duration addition of
at most 24 hours landing directly at the target hour of the next
calendar day, not a day bump by construction. -/
theorem C3_amended {s : ScheduledTicker} {t : GoTime} (hwf : s.WF) (hv : t.Valid) :
    ((s.nextMonth t).hour = 0 ∧ (s.nextMonth t).minute = 0 ∧
     (s.nextMonth t).sec = 0 ∧ (s.nextMonth t).nsec = 0) ∧
    ((s.nextDay t).hour = 0 ∧ (s.nextDay t).minute = 0 ∧
     (s.nextDay t).sec = 0 ∧ (s.nextDay t).nsec = 0) ∧
    (∃ delta, 0 < delta ∧ delta ≤ nsPerDay ∧ s.nextHour t = t.addNanos delta) ∧
    (∃ delta, 0 < delta ∧ delta ≤ nsPerHour ∧ s.nextMinute t = t.addNanos delta) ∧
    (∃ delta, 0 < delta ∧ delta ≤ nsPerMinute ∧ s.nextSecond t = t.addNanos delta) := by
  obtain ⟨v1, v2, v3, v4, v5, v6, v7, v8, v9, v10, v11, v12⟩ := id hv
  refine ⟨nextMonth_clock s t, nextDay_clock s t, ?_, ?_, ?_⟩
  · unfold ScheduledTicker.nextHour
    split
    · refine ⟨_, ?_, ?_, rfl⟩
      · simp only [nsPerHour, nsPerMinute, nsPerSecond] at *
        nlinarith
      · simp only [nsPerDay, nsPerHour, nsPerMinute, nsPerSecond] at *
        nlinarith
    · rename_i hne
      split
      · rename_i v heq
        have hv0 := List.find?_some heq
        simp only [decide_eq_true_eq] at hv0
        have hvr := hwf.2.2.1 v (List.mem_of_find?_eq_some heq)
        refine ⟨_, ?_, ?_, rfl⟩
        · simp only [nsPerHour, nsPerMinute, nsPerSecond] at *
          nlinarith
        · simp only [nsPerDay, nsPerHour, nsPerMinute, nsPerSecond] at *
          nlinarith
      · rename_i heq
        have hmem : s.hours.headI ∈ s.hours :=
          headI_mem (fun hnil => hne (by simp [hnil]))
        have hle := find_none_all_le heq s.hours.headI hmem
        have hvr := hwf.2.2.1 _ hmem
        refine ⟨_, ?_, ?_, rfl⟩
        · simp only [nsPerHour, nsPerMinute, nsPerSecond, hoursInDay] at *
          nlinarith
        · simp only [nsPerDay, nsPerHour, nsPerMinute, nsPerSecond, hoursInDay] at *
          nlinarith
  · unfold ScheduledTicker.nextMinute
    split
    · refine ⟨_, ?_, ?_, rfl⟩
      · simp only [nsPerMinute, nsPerSecond] at *
        nlinarith
      · simp only [nsPerHour, nsPerMinute, nsPerSecond] at *
        nlinarith
    · rename_i hne
      split
      · rename_i v heq
        have hv0 := List.find?_some heq
        simp only [decide_eq_true_eq] at hv0
        have hvr := hwf.2.1 v (List.mem_of_find?_eq_some heq)
        refine ⟨_, ?_, ?_, rfl⟩
        · simp only [nsPerMinute, nsPerSecond] at *
          nlinarith
        · simp only [nsPerHour, nsPerMinute, nsPerSecond] at *
          nlinarith
      · rename_i heq
        have hmem : s.minutes.headI ∈ s.minutes :=
          headI_mem (fun hnil => hne (by simp [hnil]))
        have hle := find_none_all_le heq s.minutes.headI hmem
        have hvr := hwf.2.1 _ hmem
        refine ⟨_, ?_, ?_, rfl⟩
        · simp only [nsPerMinute, nsPerSecond, minutesInHour] at *
          nlinarith
        · simp only [nsPerHour, nsPerMinute, nsPerSecond, minutesInHour] at *
          nlinarith
  · unfold ScheduledTicker.nextSecond
    split
    · refine ⟨_, ?_, ?_, rfl⟩
      · simp only [nsPerSecond] at *
        omega
      · simp only [nsPerMinute, nsPerSecond] at *
        omega
    · rename_i hne
      split
      · rename_i v heq
        have hv0 := List.find?_some heq
        simp only [decide_eq_true_eq] at hv0
        have hvr := hwf.1 v (List.mem_of_find?_eq_some heq)
        refine ⟨_, ?_, ?_, rfl⟩
        · simp only [nsPerSecond] at *
          nlinarith
        · simp only [nsPerMinute, nsPerSecond] at *
          nlinarith
      · rename_i heq
        have hmem : s.seconds.headI ∈ s.seconds :=
          headI_mem (fun hnil => hne (by simp [hnil]))
        have hle := find_none_all_le heq s.seconds.headI hmem
        have hvr := hwf.1 _ hmem
        refine ⟨_, ?_, ?_, rfl⟩
        · simp only [nsPerSecond, secondsInMinute] at *
          nlinarith
        · simp only [nsPerMinute, nsPerSecond, secondsInMinute] at *
          nlinarith

theorem C3_witness :
    (((ScheduledTicker.mk [] [] [1] [] [] []).nextMonth ⟨2021, 6, 15, 2, 0, 0, 0⟩).hour = 0 ∧
     ((ScheduledTicker.mk [] [] [1] [] [] []).nextMonth ⟨2021, 6, 15, 2, 0, 0, 0⟩).minute = 0 ∧
     ((ScheduledTicker.mk [] [] [1] [] [] []).nextMonth ⟨2021, 6, 15, 2, 0, 0, 0⟩).sec = 0 ∧
     ((ScheduledTicker.mk [] [] [1] [] [] []).nextMonth ⟨2021, 6, 15, 2, 0, 0, 0⟩).nsec = 0) ∧
    (((ScheduledTicker.mk [] [] [1] [] [] []).nextDay ⟨2021, 6, 15, 2, 0, 0, 0⟩).hour = 0 ∧
     ((ScheduledTicker.mk [] [] [1] [] [] []).nextDay ⟨2021, 6, 15, 2, 0, 0, 0⟩).minute = 0 ∧
     ((ScheduledTicker.mk [] [] [1] [] [] []).nextDay ⟨2021, 6, 15, 2, 0, 0, 0⟩).sec = 0 ∧
     ((ScheduledTicker.mk [] [] [1] [] [] []).nextDay ⟨2021, 6, 15, 2, 0, 0, 0⟩).nsec = 0) ∧
    (∃ delta, 0 < delta ∧ delta ≤ nsPerDay ∧
      (ScheduledTicker.mk [] [] [1] [] [] []).nextHour ⟨2021, 6, 15, 2, 0, 0, 0⟩ =
        GoTime.addNanos ⟨2021, 6, 15, 2, 0, 0, 0⟩ delta) ∧
    (∃ delta, 0 < delta ∧ delta ≤ nsPerHour ∧
      (ScheduledTicker.mk [] [] [1] [] [] []).nextMinute ⟨2021, 6, 15, 2, 0, 0, 0⟩ =
        GoTime.addNanos ⟨2021, 6, 15, 2, 0, 0, 0⟩ delta) ∧
    (∃ delta, 0 < delta ∧ delta ≤ nsPerMinute ∧
      (ScheduledTicker.mk [] [] [1] [] [] []).nextSecond ⟨2021, 6, 15, 2, 0, 0, 0⟩ =
        GoTime.addNanos ⟨2021, 6, 15, 2, 0, 0, 0⟩ delta) :=
  C3_amended (by decide) (by decide)

/-- C6 counterexample: the empty-specification parse error's message is
`timeutil: invalid spec: spec is empty`, which names none of the six
field semantic names. -/
theorem C6_counterexample :
    ScheduledTicker.parse ([] : List Char) =
      .error ("timeutil: invalid spec: spec is empty".toList) ∧
    hasSubstr "invalid second".toList "timeutil: invalid spec: spec is empty".toList = false ∧
    hasSubstr "invalid minute".toList "timeutil: invalid spec: spec is empty".toList = false ∧
    hasSubstr "invalid hour".toList "timeutil: invalid spec: spec is empty".toList = false ∧
    hasSubstr "invalid day".toList "timeutil: invalid spec: spec is empty".toList = false ∧
    hasSubstr "invalid month".toList "timeutil: invalid spec: spec is empty".toList = false ∧
    hasSubstr "invalid weekday".toList "timeutil: invalid spec: spec is empty".toList = false := by
  decide

/-- C6 amended: `parse` returns an error (it is a total function, so it
never panics) exactly for an empty specification, more than six fields,
or a field whose token fails its element parser; every per-field error
message names the offending field's semantic name, while the
empty-specification and too-many-fields errors say `invalid spec`
without a field name (every error message starts with
`timeutil: invalid `). -/
theorem C6_amended :
    (ScheduledTicker.parse ([] : List Char) =
      .error ("timeutil: invalid spec: spec is empty".toList)) ∧
    (∀ spec, spec ≠ [] → 6 < (splitOnChar ' ' spec).length →
      ScheduledTicker.parse spec = .error ("timeutil: invalid spec: ".toList ++ spec)) ∧
    (∀ x e, parseSecond x = .error e → hasSubstr "invalid second".toList e = true) ∧
    (∀ x e, parseMinute x = .error e → hasSubstr "invalid minute".toList e = true) ∧
    (∀ x e, parseHour x = .error e → hasSubstr "invalid hour".toList e = true) ∧
    (∀ x e, parseDay x = .error e → hasSubstr "invalid day".toList e = true) ∧
    (∀ x e, parseMonth x = .error e → hasSubstr "invalid month".toList e = true) ∧
    (∀ x e, parseWeekday x = .error e → hasSubstr "invalid weekday".toList e = true) ∧
    (∀ spec e, ScheduledTicker.parse spec = .error e →
      ("timeutil: invalid ".toList).isPrefixOf e = true) ∧
    (∀ spec l1 l2 l3 l4 l5 l6, spec ≠ [] → (splitOnChar ' ' spec).length ≤ 6 →
      parsePart ((splitOnChar ' ' spec).getD 0 []) ['s'] parseSecond = .ok l1 →
      (if 2 ≤ (splitOnChar ' ' spec).length then
        parsePart ((splitOnChar ' ' spec).getD 1 []) ['m'] parseMinute else .ok []) = .ok l2 →
      (if 3 ≤ (splitOnChar ' ' spec).length then
        parsePart ((splitOnChar ' ' spec).getD 2 []) ['h'] parseHour else .ok []) = .ok l3 →
      (if 4 ≤ (splitOnChar ' ' spec).length then
        parsePart ((splitOnChar ' ' spec).getD 3 []) ['d'] parseDay else .ok []) = .ok l4 →
      (if 5 ≤ (splitOnChar ' ' spec).length then
        parsePart ((splitOnChar ' ' spec).getD 4 []) [] parseMonth else .ok []) = .ok l5 →
      (if 6 ≤ (splitOnChar ' ' spec).length then
        parsePart ((splitOnChar ' ' spec).getD 5 []) [] parseWeekday else .ok []) = .ok l6 →
      ScheduledTicker.parse spec =
        .ok ⟨collapseFull l1 secondsInMinute, collapseFull l2 minutesInHour,
             collapseFull l3 hoursInDay, collapseFull l4 maxDaysInMonth,
             collapseFull l5 monthsInYear, collapseFull l6 daysInWeek⟩) := by
  refine ⟨by decide, ?_, ?_, ?_, ?_, ?_, ?_, ?_, ?_, ?_⟩
  · intro spec hne hlen
    unfold ScheduledTicker.parse
    rw [if_neg (by simpa using hne), if_pos hlen]
  · intro x e h
    exact hasSubstr_of_prefix (parseSecond_error h) (by decide)
  · intro x e h
    exact hasSubstr_of_prefix (parseMinute_error h) (by decide)
  · intro x e h
    exact hasSubstr_of_prefix (parseHour_error h) (by decide)
  · intro x e h
    exact hasSubstr_of_prefix (parseDay_error h) (by decide)
  · intro x e h
    exact hasSubstr_of_prefix (parseMonth_error h) (by decide)
  · intro x e h
    exact hasSubstr_of_prefix (parseWeekday_error h) (by decide)
  · intro spec e h
    exact parse_error_prefix h
  · intro spec l1 l2 l3 l4 l5 l6 hne hlen h1 h2 h3 h4 h5 h6
    exact parse_ok_of_fields hne hlen h1 h2 h3 h4 h5 h6

theorem C6_witness :
    ScheduledTicker.parse "0 0 0 1 jan mon 5".toList =
      .error ("timeutil: invalid spec: ".toList ++ "0 0 0 1 jan mon 5".toList) :=
  C6_amended.2.1 "0 0 0 1 jan mon 5".toList (by decide) (by decide)

/-- C7: a delivered tick carries the stored occurrence `n`, the next
occurrence is recomputed as `Next` of that delivered scheduled time
(never of the wall clock), a non-positive remainder sleeps not at all,
and a finite run's delivered ticks are exactly the successive
occurrences `n, Next n, Next (Next n), ...` with none coalesced or
skipped. -/
theorem C7_seeded_from_delivered_tick (next : Int → Int) (n : Int) :
    (∀ inp slept t n', schedIter next n inp = .delivered slept t n' →
      t = n ∧ n' = next n ∧ (n - inp.now ≤ 0 → slept = 0)) ∧
    (∀ inputs, (schedRun next n inputs).1 =
      orbit next n (schedRun next n inputs).1.length) := by
  constructor
  · intro inp slept t n' h
    have hinv := schedIter_delivered_inv h
    refine ⟨hinv.2.1, hinv.2.2.1, fun hd => ?_⟩
    have h1 := hinv.1
    have : max (n - inp.now) 0 = 0 := by omega
    omega
  · intro inputs
    exact schedRun_orbit next inputs n

theorem C7_witness :
    ((0 : Int) = 0 ∧ (1000 : Int) = (fun t => t + 1000) 0 ∧
      ((0 : Int) - 5 ≤ 0 → (0 : Int) = 0)) :=
  (C7_seeded_from_delivered_tick (fun t => t + 1000) 0).1 ⟨5, false, false⟩ 0 0 1000
    (by decide)

/-- C8 counterexample: with cancellation present at the blocking tick
delivery (`cancelSend = true`) but not at the sleep, the iteration still
delivers and continues — the loop does not terminate at that blocking
point, because the channel send does not select on the context. -/
theorem C8_counterexample :
    (IterInput.mk 0 false true).cancelSend = true ∧
    schedIter (fun t => t + 1) 0 ⟨0, false, true⟩ = .delivered 0 0 1 ∧
    ¬schedIter (fun t => t + 1) 0 ⟨0, false, true⟩ = .exited := by
  decide

/-- C8 amended: cancellation is observed at the two sleep blocking
points (bounded-ceiling and remainder), where it makes the loop exit at
once and close the tick stream; it is not observed while blocked on
tick delivery — the iteration's outcome is independent of the
cancellation state at the send, and a pending delivery completes, with
cancellation taking effect at the next sleep; the stream closes exactly
when an iteration exits because its sleep observed cancellation. -/
theorem C8_amended (next : Int → Int) (n : Int) :
    (∀ inp : IterInput, inp.cancelSleep = true → schedIter next n inp = .exited) ∧
    (∀ inp : IterInput, inp.cancelSleep = false → schedIter next n inp ≠ .exited) ∧
    (∀ now c1 c2 c2', schedIter next n ⟨now, c1, c2⟩ = schedIter next n ⟨now, c1, c2'⟩) ∧
    (∀ inputs, (∀ i ∈ inputs, i.cancelSleep = false) → (schedRun next n inputs).2 = false) ∧
    (∀ inputs last, (∀ i ∈ inputs, i.cancelSleep = false) → last.cancelSleep = true →
      (schedRun next n (inputs ++ [last])).2 = true) := by
  refine ⟨?_, ?_, ?_, ?_, ?_⟩
  · intro inp hc
    rw [schedIter_eq, if_pos hc]
  · intro inp hc h
    have := schedIter_exited_inv h
    rw [hc] at this
    cases this
  · intro now c1 c2 c2'
    rfl
  · intro inputs hall
    exact schedRun_not_closed next inputs n hall
  · intro inputs last hall hl
    exact schedRun_closes next inputs n last hall hl

theorem C8_witness :
    schedIter (fun t => t + 1) 7 ⟨0, true, false⟩ = .exited :=
  (C8_amended (fun t => t + 1) 7).1 ⟨0, true, false⟩ (by decide)

/-- C9: an iteration whose remaining duration reaches the 15-minute
ceiling (and whose sleep is not cancelled) sleeps the ceiling only and
re-loops with the stored occurrence unchanged and no tick emitted; a
tick can only be delivered by an iteration whose remaining duration is
below the ceiling. -/
theorem C9_ceiling_sleep_no_tick (next : Int → Int) (n : Int) (inp : IterInput) :
    (scheduleMaxSleepTime ≤ n - inp.now → inp.cancelSleep = false →
      schedIter next n inp = .ceilingSlept n) ∧
    (∀ slept t n', schedIter next n inp = .delivered slept t n' →
      n - inp.now < scheduleMaxSleepTime) := by
  constructor
  · intro hd hc
    rw [schedIter_eq, if_neg (by simp [hc]), if_pos hd]
  · intro slept t n' h
    exact (schedIter_delivered_inv h).2.2.2.2

theorem C9_witness :
    schedIter (fun t => t) 1000000000000000 ⟨0, false, false⟩ =
      .ceilingSlept 1000000000000000 :=
  (C9_ceiling_sleep_no_tick (fun t => t) 1000000000000000 ⟨0, false, false⟩).1
    (by decide) (by decide)

/-- C10: a terminating `Next` run on a well-formed schedule from any
valid instant — sub-second component included — returns an instant
whose nanosecond component is exactly zero. -/
theorem C10_next_whole_second (s : ScheduledTicker) (fuel : Nat) (t r : GoTime)
    (hwf : s.WF) (hv : t.Valid) (hr : s.next fuel t = some r) : r.nsec = 0 :=
  (next_spec hwf hv hr).2.2.1

theorem C10_witness : (⟨2020, 1, 1, 0, 0, 1, 0⟩ : GoTime).nsec = 0 :=
  C10_next_whole_second ⟨[], [], [], [], [], []⟩ 2 ⟨2020, 1, 1, 0, 0, 0, 500000000⟩
    ⟨2020, 1, 1, 0, 0, 1, 0⟩ (by decide) (by decide) (by decide)

end timeutil
